import Mathlib

/-!
Shallow embedding of the WikiDeep repository (src/royals_graph.py together
with the knowledge-source client of src/wiki_extract.py) and proofs of the
frozen claims about it.

Modelling conventions, matching the Python source:
* A Python `_Royal` object holds direct references to other `_Royal`
  objects in its `parents` / `children` sets; every object placed in such a
  set is obtained from the store dictionary (`add_edge` looks both royals
  up in `self._royals`), so object identity coincides with `wiki_id`
  equality.  We therefore store the relationship sets as lists of wiki ids.
  A store in which a listed id has no royal cannot arise from the source's
  reference-based representation; the predicate `Closed` states this
  structural fact and appears as a hypothesis where a proof needs it.
* Python `set`s have an unspecified iteration order; we model them as
  lists (`setAdd` inserts only if absent, mirroring `set.add`).
* The network calls of `WikiExtract` are modelled by an oracle record
  `Wiki`; claims quantify over arbitrary oracle responses.
* `while` loops are written with an explicit fuel argument; running out of
  fuel returns the state reached so far, so invariant statements hold for
  every fuel and complete runs are obtained by supplying enough fuel.
* The wall-clock timings returned by the two search functions are I/O and
  are dropped; only the `(found, path)` components are modelled.
* Pickled checkpoints are modelled by a filesystem association list from
  path to the stored graph (pickling a store and unpickling it yields an
  equal store, which is all `save`/`load` do with the bytes).
-/

namespace WikiDeep

/-- Oracle for the wikidata client `WikiExtract` (src/wiki_extract.py):
`get_children`/`get_parents` return an optional set of (id, name) pairs,
`get_birthdate` an optional list of date strings, `get_wikidata_id` an
optional id.  `None` results model the client's `IndexError` path. -/
structure Wiki where
  get_children : String → Option (List (String × String))
  get_parents : String → Option (List (String × String))
  get_birthdate : String → Option (List String)
  get_wikidata_id : String → Option String

/-- A royal in `RoyalsGraph` (class `_Royal`).  Relationship sets hold wiki
ids of the referenced royals (see the module conventions above). -/
structure Royal where
  wiki_id : String
  name : String
  birth_year : Int
  parents : List String
  children : List String
deriving DecidableEq, Repr

/-- The store `RoyalsGraph._royals`: a dict keyed by wiki id, kept here as
the list of royals in insertion order (each royal is stored under its own
`wiki_id`, as in `add_royal`). -/
structure RoyalsGraph where
  royals : List Royal
deriving DecidableEq, Repr

/-- The empty graph produced by `RoyalsGraph.__init__`. -/
def RoyalsGraph.empty : RoyalsGraph := ⟨[]⟩

/-- Dictionary lookup `self._royals[wiki_id]` (as an option). -/
def RoyalsGraph.find (g : RoyalsGraph) (wiki_id : String) : Option Royal :=
  g.royals.find? (fun r => r.wiki_id == wiki_id)

/-- Python `set.add`: insert the element only if it is not present. -/
def setAdd (s : List String) (x : String) : List String :=
  if x ∈ s then s else s ++ [x]

/-- In-place mutation of the royal stored under `wiki_id` (all aliases of a
Python object are the one dict entry, so updating the entry is exact). -/
def RoyalsGraph.updateRoyal (g : RoyalsGraph) (wiki_id : String) (f : Royal → Royal) :
    RoyalsGraph :=
  ⟨g.royals.map (fun r => if r.wiki_id == wiki_id then f r else r)⟩

/-- The birth-year sanity checks at the top of `add_royal`: take the first
returned date string, parse its first four characters as a year when they
are all digits, otherwise (or when no list / an empty list came back) use
the sentinel `-1`. -/
def parseBirthYear (birth_years : Option (List String)) : Int :=
  match birth_years with
  | some (birth_year_str :: _) =>
    if birth_year_str.length ≥ 4 && (birth_year_str.take 4).all (fun c => c.isDigit) then
      (((birth_year_str.take 4).foldl (fun n c => n * 10 + (c.toNat - 48)) 0 : Nat) : Int)
    else -1
  | _ => -1

/-- `RoyalsGraph.add_royal`: add a royal under `wiki_id` if absent, querying
the oracle for the birth year; a present id is left untouched. -/
def RoyalsGraph.add_royal (g : RoyalsGraph) (w : Wiki) (wiki_id name : String) : RoyalsGraph :=
  if (g.find wiki_id).isSome then g
  else ⟨g.royals ++ [⟨wiki_id, name, parseBirthYear (w.get_birthdate wiki_id), [], []⟩]⟩

/-- `RoyalsGraph.add_royal_with_birth_year`: as `add_royal` but with the
birth year supplied by the caller. -/
def RoyalsGraph.add_royal_with_birth_year (g : RoyalsGraph) (wiki_id name : String)
    (birth_year : Int) : RoyalsGraph :=
  if (g.find wiki_id).isSome then g
  else ⟨g.royals ++ [⟨wiki_id, name, birth_year, [], []⟩]⟩

/-- `RoyalsGraph.add_edge`: when both ids are present, add the child to the
parent's `children` and the parent to the child's `parents` (a matched
pair); otherwise raise `ValueError`, modelled as `none`. -/
def RoyalsGraph.add_edge (g : RoyalsGraph) (parent_id child_id : String) :
    Option RoyalsGraph :=
  if (g.find parent_id).isSome && (g.find child_id).isSome then
    some ((g.updateRoyal parent_id
            (fun r => { r with children := setAdd r.children child_id })).updateRoyal
          child_id (fun r => { r with parents := setAdd r.parents parent_id }))
  else none

/-- A frontier entry `(depth, wiki_id, name)` of `royals_queue`. -/
abbrev QEntry := Nat × String × String

/-- One of the two symmetric loops inside `add_children_parents`.  For each
`(id, name, birth_year)` tuple: add the royal (via `add_royal` when the
data came from the oracle, via `add_royal_with_birth_year` when it came
from a base graph), add the edge to the current royal (`parent_side` tells
which way round), and enqueue the new royal at `curr_depth`.  A
`ValueError` from `add_edge` aborts the loop with the mutations made so
far kept (the Python exception propagates after the store was mutated);
the final `Bool` reports that abort. -/
def acpAddLoop (w : Wiki) (use_birth : Bool) (curr_id : String) (curr_depth : Nat)
    (parent_side : Bool) :
    RoyalsGraph → List QEntry → List (String × String × Int) →
    RoyalsGraph × List QEntry × Bool
  | g, queue, [] => (g, queue, false)
  | g, queue, (rid, rname, rby) :: rest =>
    let g1 := if use_birth then g.add_royal_with_birth_year rid rname rby
              else g.add_royal w rid rname
    match (if parent_side then g1.add_edge rid curr_id else g1.add_edge curr_id rid) with
    | none => (g1, queue, true)
    | some g2 =>
      acpAddLoop w use_birth curr_id curr_depth parent_side g2
        (queue ++ [(curr_depth, rid, rname)]) rest

/-- The body of `add_children_parents` once the children and parents info
lists have been fetched: the parents loop, then the children loop, then
`royals_added.add(curr_id)`; a `None` info list skips its loop, and an
escaped `ValueError` stops processing with the state mutated so far. -/
def acpCore (w : Wiki) (use_birth : Bool) (curr_id : String) (curr_depth : Nat)
    (parents_info children_info : Option (List (String × String × Int)))
    (g : RoyalsGraph) (royals_queue : List QEntry) (royals_added : List String) :
    RoyalsGraph × List QEntry × List String × Bool :=
  match (match parents_info with
    | none => (g, royals_queue, false)
    | some infos => acpAddLoop w use_birth curr_id curr_depth true g royals_queue infos) with
  | (g1, q1, true) => (g1, q1, royals_added, true)
  | (g1, q1, false) =>
    match (match children_info with
      | none => (g1, q1, false)
      | some infos => acpAddLoop w use_birth curr_id curr_depth false g1 q1 infos) with
    | (g2, q2, true) => (g2, q2, royals_added, true)
    | (g2, q2, false) => (g2, q2, setAdd royals_added curr_id, false)

/-- `RoyalsGraph.add_children_parents`: fetch the children and parents of
`curr_id` (from the oracle, or from `base_graph` when given), run the
parents loop then the children loop, and finally record `curr_id` in
`royals_added`.  The returned `Bool` is true when a `ValueError` escaped
(absent `curr_id` in the base graph, or a failing `add_edge`); the state
mutated up to that point is returned with it. -/
def RoyalsGraph.add_children_parents (g : RoyalsGraph) (w : Wiki) (curr_id : String)
    (curr_depth : Nat) (royals_queue : List QEntry) (royals_added : List String)
    (base_graph : Option RoyalsGraph) :
    RoyalsGraph × List QEntry × List String × Bool :=
  match base_graph with
  | none =>
    acpCore w false curr_id curr_depth
      ((w.get_parents curr_id).map (List.map (fun q => (q.1, q.2, (0 : Int)))))
      ((w.get_children curr_id).map (List.map (fun q => (q.1, q.2, (0 : Int)))))
      g royals_queue royals_added
  | some base =>
    match base.find curr_id with
    | none => (g, royals_queue, royals_added, true)
    | some r =>
      acpCore w true curr_id curr_depth
        (some (r.parents.filterMap
          (fun pid => (base.find pid).map (fun x => (x.wiki_id, x.name, x.birth_year)))))
        (some (r.children.filterMap
          (fun cid => (base.find cid).map (fun x => (x.wiki_id, x.name, x.birth_year)))))
        g royals_queue royals_added

/-- The root-seeding loop at the top of `fill_graph`: resolve each root
name (after `strip`), silently skipping names with no id, add the resolved
royal and enqueue it at depth 0. -/
def RoyalsGraph.seedRoots (g : RoyalsGraph) (w : Wiki) (root_names : List String) :
    RoyalsGraph × List QEntry :=
  root_names.foldl
    (fun acc name =>
      match w.get_wikidata_id name.trim with
      | none => acc
      | some wiki_id => (acc.1.add_royal w wiki_id name, acc.2 ++ [(0, wiki_id, name)]))
    (g, [])

/-- The `while` loop of `fill_graph`: pop the oldest frontier entry,
increment its depth, and expand it through `add_children_parents` only
when the incremented depth is within `max_depth`.  The periodic
`self.save()` calls touch only the filesystem and are omitted.  The
`Bool` is true when the loop drained its queue within the given fuel and
no `ValueError` escaped. -/
def fillLoop (w : Wiki) (max_depth : Nat) :
    Nat → RoyalsGraph → List QEntry → List String → RoyalsGraph × Bool
  | 0, g, _, _ => (g, false)
  | _ + 1, g, [], _ => (g, true)
  | fuel + 1, g, (curr_depth, curr_id, _) :: queue_rest, added =>
    if curr_depth + 1 ≤ max_depth then
      match g.add_children_parents w curr_id (curr_depth + 1) queue_rest added none with
      | (g1, q1, a1, err) => if err then (g1, false) else fillLoop w max_depth fuel g1 q1 a1
    else
      fillLoop w max_depth fuel g queue_rest added

/-- `RoyalsGraph.fill_graph`: seed the graph from the root names, then run
the frontier loop with `royals_added` starting empty. -/
def RoyalsGraph.fill_graph (g : RoyalsGraph) (w : Wiki) (root_names : List String)
    (max_depth : Nat) (fuel : Nat) : RoyalsGraph × Bool :=
  match g.seedRoots w root_names with
  | (g0, queue) => fillLoop w max_depth fuel g0 queue []

/-- The checkpoint directory, as an association list from file path to the
pickled store (unpickling returns an equal store, so the graph itself
stands in for its pickle). -/
abbrev CheckpointFS := List (String × RoyalsGraph)

/-- Path written by `RoyalsGraph.save`: a timestamped name under
`graph_files/` ending in the royal count. -/
def savePath (date_time : String) (num_royals : Nat) : String :=
  "graph_files/" ++ date_time ++ "_RoyalsGraph_" ++ toString num_royals ++ "royals"

/-- `RoyalsGraph.save`: pickle the graph into a fresh timestamped file
under `graph_files/` (newest file first so that lookups see it). -/
def RoyalsGraph.save (fs : CheckpointFS) (g : RoyalsGraph) (date_time : String) :
    CheckpointFS :=
  (savePath date_time g.royals.length, g) :: fs

/-- `RoyalsGraph.load`: read the fixed path `graph`; when that file does
not exist raise `ValueError`, modelled as `none`. -/
def RoyalsGraph.load (fs : CheckpointFS) : Option RoyalsGraph :=
  (fs.find? (fun e => e.1 == "graph")).map (fun e => e.2)

/-- A search frontier element of `connected_breadth`/`connected_depth`:
the royal object together with the path from `id1` to it. -/
abbrev SEntry := Royal × List String

/-- The neighbour scan order `set.union(v.parents, v.children)` (a set, so
duplicates collapse; the iteration order of a Python set is unspecified
and one order is fixed here). -/
def nbrIds (v : Royal) : List String := (v.parents ++ v.children).dedup

/-- Which of the two search variants is running. -/
inductive SearchMode where
  | breadth
  | depth
deriving DecidableEq, Repr

/-- `stack.pop()`: remove and return the last element. -/
def popLast : List SEntry → Option (SEntry × List SEntry)
  | [] => none
  | [e] => some (e, [])
  | e :: e2 :: rest =>
    match popLast (e2 :: rest) with
    | none => none
    | some (x, rest2) => some (x, e :: rest2)

/-- `queue.pop(0)` for the breadth-first variant, `stack.pop()` for the
depth-first variant. -/
def popFrom : SearchMode → List SEntry → Option (SEntry × List SEntry)
  | _, [] => none
  | .breadth, e :: rest => some (e, rest)
  | .depth, e :: rest => popLast (e :: rest)

/-- The `for u in set.union(v.parents, v.children)` body shared by both
searches: looking at each neighbour in turn, return the found path as soon
as a neighbour is `id2`; otherwise collect the entries appended for fresh
neighbours and the grown visited set.  (A neighbour id with no royal in
the store cannot occur in the source, whose sets hold the royal objects
themselves; such an id is skipped.) -/
def visitNbrs (g : RoyalsGraph) (id2 : String) (path_so_far : List String) :
    List String → List String → Option (List String) × List SEntry × List String
  | [], visited => (none, [], visited)
  | uid :: rest, visited =>
    match g.find uid with
    | none => visitNbrs g id2 path_so_far rest visited
    | some u =>
      if u.wiki_id == id2 then (some (path_so_far ++ [u.wiki_id]), [], visited)
      else if uid ∈ visited then visitNbrs g id2 path_so_far rest visited
      else
        match visitNbrs g id2 path_so_far rest (visited ++ [uid]) with
        | (res, es, vis) => (res, (u, path_so_far ++ [u.wiki_id]) :: es, vis)

/-- The shared `while` loop of the two searches.  Fresh entries are always
appended at the back; the mode decides which end is popped. -/
def searchLoop (g : RoyalsGraph) (id2 : String) (mode : SearchMode) :
    Nat → List SEntry → List String → Option (Bool × List String)
  | 0, _, _ => none
  | fuel + 1, queue, visited =>
    match popFrom mode queue with
    | none => some (false, [])
    | some ((v, path_so_far), rest) =>
      match visitNbrs g id2 path_so_far (nbrIds v) visited with
      | (some p, _, _) => some (true, p)
      | (none, es, vis) => searchLoop g id2 mode fuel (rest ++ es) vis

/-- Fuel that always suffices for a search to drain (each iteration pops
one entry, and at most `1 + |store|` entries are ever pushed because every
push freshly marks a store id visited). -/
def searchFuel (g : RoyalsGraph) : Nat := 2 * g.royals.length + 2

/-- `RoyalsGraph.connected_breadth` (timing dropped): `none` only when
`id1` is absent (a `KeyError`, excluded by the documented precondition). -/
def RoyalsGraph.connected_breadth (g : RoyalsGraph) (id1 id2 : String) :
    Option (Bool × List String) :=
  (g.find id1).bind (fun r => searchLoop g id2 .breadth (searchFuel g) [(r, [id1])] [])

/-- `RoyalsGraph.connected_depth` (timing dropped), the stack variant. -/
def RoyalsGraph.connected_depth (g : RoyalsGraph) (id1 id2 : String) :
    Option (Bool × List String) :=
  (g.find id1).bind (fun r => searchLoop g id2 .depth (searchFuel g) [(r, [id1])] [])

/-!  Specification predicates over stores. -/

/-- Every id listed in a relationship set has a royal in the store.  This
is automatic for the source's reference-based sets (only dict entries are
ever placed in them) and is the structural hypothesis the id-based
embedding uses in its place. -/
def Closed (g : RoyalsGraph) : Prop :=
  ∀ r ∈ g.royals, ∀ x ∈ r.parents ++ r.children, (g.find x).isSome = true

instance (g : RoyalsGraph) : Decidable (Closed g) := by
  unfold Closed; infer_instance

/-- The relationship-symmetry invariant: for entities `A`, `B` in the
store, `A` is in `B`'s parents iff `B` is in `A`'s children. -/
def Symm (g : RoyalsGraph) : Prop :=
  ∀ ra ∈ g.royals, ∀ rb ∈ g.royals,
    (ra.wiki_id ∈ rb.parents ↔ rb.wiki_id ∈ ra.children)

instance (g : RoyalsGraph) : Decidable (Symm g) := by
  unfold Symm; infer_instance

/-- One parent/child edge as the searches traverse it: `b` is listed among
the parents or children of the royal stored under `a`. -/
def adjB (g : RoyalsGraph) (a b : String) : Bool :=
  match g.find a with
  | none => false
  | some r => decide (b ∈ r.parents) || decide (b ∈ r.children)

/-- Consecutive elements of the list are joined by a parent/child edge. -/
def chainOk (g : RoyalsGraph) : List String → Bool
  | [] => true
  | [_] => true
  | a :: b :: rest => adjB g a b && chainOk g (b :: rest)

/-- Undirected adjacency: a parent/child edge listed on either endpoint
(the two coincide on stores satisfying `Symm` and `Closed`). -/
def adjUB (g : RoyalsGraph) (a b : String) : Bool := adjB g a b || adjB g b a

/-- Consecutive elements are joined by an undirected parent/child edge. -/
def chainOkU (g : RoyalsGraph) : List String → Bool
  | [] => true
  | [_] => true
  | a :: b :: rest => adjUB g a b && chainOkU g (b :: rest)

/-- `p` is a walk from `a` to `b` along parent/child edges. -/
def Walk (g : RoyalsGraph) (a b : String) (p : List String) : Prop :=
  p.head? = some a ∧ p.getLast? = some b ∧ chainOk g p = true

/-- `p` is a walk from `a` to `b` along undirected parent/child edges. -/
def WalkU (g : RoyalsGraph) (a b : String) (p : List String) : Prop :=
  p.head? = some a ∧ p.getLast? = some b ∧ chainOkU g p = true

/-- `b` can be reached from `a` along parent/child edges. -/
def Reach (g : RoyalsGraph) (a b : String) : Prop := ∃ p, Walk g a b p

/-- `x` is within `k` discovery steps of the id set `S` in `g`: either it
is one of the seeds, or it is a listed parent/child of something within
`k - 1` steps. -/
def NearLe (g : RoyalsGraph) (S : List String) : Nat → String → Prop
  | 0, x => x ∈ S
  | k + 1, x => NearLe g S k x ∨ ∃ y, NearLe g S k y ∧ adjB g y x = true

/-- Stores reachable from the empty store by the mutating operations,
each with arbitrary oracle responses, arguments and fuel.  A failing
`add_edge` raises before mutating, so only its successful runs produce a
new store; `add_children_parents` and `fill_graph` return their partially
mutated store together with the error flag, and that store is the state
the exception leaves behind. -/
inductive Reachable : RoyalsGraph → Prop where
  | empty : Reachable RoyalsGraph.empty
  | add_royal (g : RoyalsGraph) (w : Wiki) (wiki_id name : String) :
      Reachable g → Reachable (g.add_royal w wiki_id name)
  | add_royal_with_birth_year (g : RoyalsGraph) (wiki_id name : String) (birth_year : Int) :
      Reachable g → Reachable (g.add_royal_with_birth_year wiki_id name birth_year)
  | add_edge (g g' : RoyalsGraph) (parent_id child_id : String) :
      Reachable g → g.add_edge parent_id child_id = some g' → Reachable g'
  | add_children_parents (g : RoyalsGraph) (w : Wiki) (curr_id : String) (curr_depth : Nat)
      (royals_queue : List QEntry) (royals_added : List String)
      (base_graph : Option RoyalsGraph) :
      Reachable g →
      Reachable (g.add_children_parents w curr_id curr_depth royals_queue royals_added
        base_graph).1
  | fill_graph (g : RoyalsGraph) (w : Wiki) (root_names : List String)
      (max_depth fuel : Nat) :
      Reachable g → Reachable (g.fill_graph w root_names max_depth fuel).1

/-- The per-royal effect of a successful `add_edge parent_id child_id`:
the royal stored under the parent id gains the child in `children`, the
one under the child id gains the parent in `parents` (the same record
gains both when the two ids coincide). -/
def edgeUpd (parent_id child_id : String) (r : Royal) : Royal :=
  { r with
    parents := if r.wiki_id == child_id then setAdd r.parents parent_id else r.parents,
    children := if r.wiki_id == parent_id then setAdd r.children child_id else r.children }

/-- The root ids `fill_graph` seeds at depth 0: each root name stripped
and resolved, unresolvable names skipped. -/
def rootIds (w : Wiki) (root_names : List String) : List String :=
  root_names.filterMap (fun name => w.get_wikidata_id name.trim)

/-- Store ids not yet visited, counted without multiplicity (the measure
showing a search loop drains). -/
def unseenCount (g : RoyalsGraph) (visited : List String) : Nat :=
  (((g.royals.map (fun r => r.wiki_id)).dedup).filter
    (fun i => decide (i ∉ visited))).length

/-- An oracle whose every request fails (no data found). -/
def wNone : Wiki := ⟨fun _ => none, fun _ => none, fun _ => none, fun _ => none⟩

/-- Oracle used on the no-self-relation claim: the knowledge source lists
`Q1` as its own parent (degenerate source data, which §1 of the spec says
is not detected or repaired). -/
def wSelf : Wiki := ⟨fun _ => some [], fun _ => some [("Q1", "A")], fun _ => none, fun _ => none⟩

/-- A store holding only the royal `Q1`. -/
def gSelfStart : RoyalsGraph := RoyalsGraph.empty.add_royal_with_birth_year "Q1" "A" 1905

/-- Expanding `Q1` against `wSelf` (as `fill_graph` does for every popped
frontier entry). -/
def gSelfResult : RoyalsGraph :=
  (gSelfStart.add_children_parents wSelf "Q1" 1 [] [] none).1

/-- Oracle used on the depth-bound claims: every name resolves to `Q1`,
whose sole relative is the parent `Q2`; `Q2` has no relatives. -/
def wDepth : Wiki :=
  ⟨fun _ => some [],
   fun i => if i == "Q1" then some [("Q2", "Parent")] else some [],
   fun _ => none,
   fun _ => some "Q1"⟩

/-- A one-royal store for the checkpoint claims. -/
def demoStore : RoyalsGraph := ⟨[⟨"Q1", "A", 1900, [], []⟩]⟩

/-- A four-royal chain `Q1 – Q2 – Q3 – Q4` (each a parent of the next)
with symmetric edge lists, used to witness the search claims. -/
def chainStore : RoyalsGraph :=
  ⟨[⟨"Q1", "A", 1, [], ["Q2"]⟩,
    ⟨"Q2", "B", 2, ["Q1"], ["Q3"]⟩,
    ⟨"Q3", "C", 3, ["Q2"], ["Q4"]⟩,
    ⟨"Q4", "D", 4, ["Q3"], []⟩]⟩

/-- The invariant carried by every queued search entry: the entry holds
the royal stored under its own id, that id is not the target, and the
path carried alongside starts at `id1`, ends at the entry's own id, and
follows parent/child edges. -/
def EntryOk (g : RoyalsGraph) (id1 id2 : String) (e : SEntry) : Prop :=
  g.find e.1.wiki_id = some e.1 ∧ e.1.wiki_id ≠ id2 ∧
    e.2.head? = some id1 ∧ e.2.getLast? = some e.1.wiki_id ∧ chainOk g e.2 = true

/-- Loop invariant of both searches for the connectivity result, with the
ghost set `Ex` of already-expanded ids: every neighbour of an expanded id
is pushed (visited or the start) and is not the target; visited ids are
expanded or still queued; the start is expanded or queued; queued ids are
pushed; the target is never visited; queue entries hold their stored
royal. -/
def SearchInv (g : RoyalsGraph) (id1 id2 : String) (queue : List SEntry)
    (visited : List String) : Prop :=
  ∃ Ex : List String,
    (∀ u ∈ Ex, ∀ y, adjB g u y = true → (y ∈ visited ∨ y = id1) ∧ y ≠ id2) ∧
    (∀ u ∈ visited, u ∈ Ex ∨ ∃ e ∈ queue, e.1.wiki_id = u) ∧
    (id1 ∈ Ex ∨ ∃ e ∈ queue, e.1.wiki_id = id1) ∧
    (∀ e ∈ queue, e.1.wiki_id ∈ visited ∨ e.1.wiki_id = id1) ∧
    id2 ∉ visited ∧
    (∀ e ∈ queue, g.find e.1.wiki_id = some e.1)

/-- Loop invariant of the breadth-first search for minimality, with ghost
data: the expanded set `Ex` and the first-push path length `rho` of every
pushed id.  FIFO order keeps queue path lengths sorted within a window of
one; `rho` matches each queue entry's length (the start may be re-pushed
longer); expanding a vertex pushes its fresh neighbours one longer. -/
structure BfsState (g : RoyalsGraph) (id1 id2 : String) (queue : List SEntry)
    (visited : List String) (Ex : List String) (rho : String → Nat) : Prop where
  entries : ∀ e ∈ queue, g.find e.1.wiki_id = some e.1 ∧ e.1.wiki_id ≠ id2
  sorted : List.Sorted (· ≤ ·) (queue.map (fun e => e.2.length))
  bounded : ∀ f ∈ queue.head?, ∀ e ∈ queue, e.2.length ≤ f.2.length + 1
  entry_rho : ∀ e ∈ queue, rho e.1.wiki_id = e.2.length ∨ e.1.wiki_id = id1
  rho_bound : ∀ f ∈ queue.head?, ∀ u, (u ∈ visited ∨ u = id1) → rho u ≤ f.2.length + 1
  expand : ∀ u ∈ Ex, ∀ y, adjB g u y = true →
    (y ∈ visited ∨ y = id1) ∧ y ≠ id2 ∧ rho y ≤ rho u + 1
  vis_split : ∀ u ∈ visited, u ∈ Ex ∨ ∃ e ∈ queue, e.1.wiki_id = u
  id1_split : id1 ∈ Ex ∨ ∃ e ∈ queue, e.1.wiki_id = id1
  rho_id1 : rho id1 = 1
  id2_not_vis : id2 ∉ visited
  ex_pushed : ∀ u ∈ Ex, u ∈ visited ∨ u = id1
  queue_pushed : ∀ e ∈ queue, e.1.wiki_id ∈ visited ∨ e.1.wiki_id = id1
  id1_entry : id1 ∉ Ex → ∃ e ∈ queue, e.1.wiki_id = id1 ∧ e.2.length = 1
  lens_pos : ∀ e ∈ queue, 1 ≤ e.2.length

/-- The breadth-first minimality invariant, ghosts quantified away. -/
def BfsInv (g : RoyalsGraph) (id1 id2 : String) (queue : List SEntry)
    (visited : List String) : Prop :=
  ∃ (Ex : List String) (rho : String → Nat), BfsState g id1 id2 queue visited Ex rho

/-- Updating the ghost first-push lengths after one breadth-first
expansion: the freshly pushed ids get the popped length plus one, the
start keeps its initial length `1`. -/
def rhoStep (id1 : String) (newIds : List String) (plen : Nat) (rho : String → Nat) :
    String → Nat :=
  fun x => if x = id1 then 1 else if x ∈ newIds then plen + 1 else rho x

/-- `g'` extends `g`: every stored royal keeps its identity and its
relationship lists only grow (stores never shrink). -/
def Grows (g g' : RoyalsGraph) : Prop :=
  ∀ x r, g.find x = some r →
    ∃ r', g'.find x = some r' ∧ r.parents ⊆ r'.parents ∧ r.children ⊆ r'.children

/-- Every id present in the store is within `d` discovery steps of the
seed set `S` (the store part of the `fill_graph` loop invariant). -/
def FillStoreOk (g : RoyalsGraph) (S : List String) (d : Nat) : Prop :=
  ∀ x, (g.find x).isSome = true → NearLe g S d x

/-- Every frontier entry refers to a stored royal within its recorded
depth of the seed set (the queue part of the `fill_graph` invariant). -/
def FillQueueOk (g : RoyalsGraph) (S : List String) (queue : List QEntry) : Prop :=
  ∀ e ∈ queue, (g.find e.2.1).isSome = true ∧ NearLe g S e.1 e.2.1

/-- A store built by the mutating operations themselves, witnessing the
symmetry invariant: two royals joined by one `add_edge`. -/
def wfWitnessStore : RoyalsGraph :=
  (((RoyalsGraph.empty.add_royal_with_birth_year "Q1" "A" 1).add_royal_with_birth_year
      "Q2" "B" 2).add_edge "Q1" "Q2").getD RoyalsGraph.empty

/-!  Basic lemmas about lookups and edge insertion. -/

theorem find_wiki_id {g : RoyalsGraph} {x : String} {r : Royal}
    (h : g.find x = some r) : r.wiki_id = x := by
  have := List.find?_some h
  simpa using this

theorem find_mem {g : RoyalsGraph} {x : String} {r : Royal}
    (h : g.find x = some r) : r ∈ g.royals :=
  List.mem_of_find?_eq_some h

theorem find_isSome_iff {g : RoyalsGraph} {x : String} :
    (g.find x).isSome = true ↔ ∃ r ∈ g.royals, r.wiki_id = x := by
  unfold RoyalsGraph.find
  rw [List.find?_isSome]
  simp

theorem mem_setAdd {s : List String} {x y : String} :
    y ∈ setAdd s x ↔ y ∈ s ∨ y = x := by
  unfold setAdd
  split
  · constructor
    · exact fun h => Or.inl h
    · rintro (h | rfl)
      · exact h
      · assumption
  · simp

theorem add_edge_royals {g g' : RoyalsGraph} {p c : String}
    (h : g.add_edge p c = some g') :
    g'.royals = g.royals.map (edgeUpd p c) := by
  unfold RoyalsGraph.add_edge at h
  split at h
  · cases h
    unfold RoyalsGraph.updateRoyal
    simp only [List.map_map]
    apply List.map_congr_left
    intro r _
    by_cases hp : r.wiki_id = p <;> by_cases hc : r.wiki_id = c
    · have hpc : p = c := hp.symm.trans hc
      subst hpc
      simp [Function.comp_apply, edgeUpd, hp]
    · have h1 : ¬p = c := fun h' => hc (hp.trans h')
      have h2 : ¬c = p := fun h' => h1 h'.symm
      simp [Function.comp_apply, edgeUpd, hp, hc, h1, h2]
    · have h1 : ¬c = p := fun h' => hp (hc.trans h')
      have h2 : ¬p = c := fun h' => h1 h'.symm
      simp [Function.comp_apply, edgeUpd, hp, hc, h1, h2]
    · simp [Function.comp_apply, edgeUpd, hp, hc]
  · cases h

theorem add_edge_isSome {g g' : RoyalsGraph} {p c : String}
    (h : g.add_edge p c = some g') :
    (g.find p).isSome = true ∧ (g.find c).isSome = true := by
  unfold RoyalsGraph.add_edge at h
  split at h
  next hcond => exact And.imp (fun a => a) (fun a => a) (by simpa using hcond)
  · cases h

theorem edgeUpd_wiki_id (p c : String) (r : Royal) :
    (edgeUpd p c r).wiki_id = r.wiki_id := rfl

theorem find_map_edgeUpd {g : RoyalsGraph} {p c : String} (x : String) :
    (RoyalsGraph.mk (g.royals.map (edgeUpd p c))).find x
      = (g.find x).map (edgeUpd p c) := by
  unfold RoyalsGraph.find
  rw [List.find?_map]
  rfl

/-!  Preservation of `Closed` and `Symm` by every mutating operation
(the machinery behind the relationship-symmetry claim). -/

theorem closed_parents {g : RoyalsGraph} (hC : Closed g) {r : Royal}
    (hr : r ∈ g.royals) {x : String} (hx : x ∈ r.parents) :
    (g.find x).isSome = true :=
  hC r hr x (List.mem_append_left _ hx)

theorem closed_children {g : RoyalsGraph} (hC : Closed g) {r : Royal}
    (hr : r ∈ g.royals) {x : String} (hx : x ∈ r.children) :
    (g.find x).isSome = true :=
  hC r hr x (List.mem_append_right _ hx)

theorem find_append_right {g : RoyalsGraph} {x : String} (l : List Royal)
    (h : (g.find x).isSome = true) :
    ((RoyalsGraph.mk (g.royals ++ l)).find x).isSome = true := by
  unfold RoyalsGraph.find at *
  rw [List.find?_append]
  rcases Option.isSome_iff_exists.mp h with ⟨r, hr⟩
  rw [hr]
  rfl

theorem wf_append_isolated (g : RoyalsGraph) (r0 : Royal)
    (hfind : g.find r0.wiki_id = none) (hp : r0.parents = []) (hc : r0.children = [])
    (hC : Closed g) (hS : Symm g) :
    Closed (RoyalsGraph.mk (g.royals ++ [r0])) ∧ Symm (RoyalsGraph.mk (g.royals ++ [r0])) := by
  constructor
  · intro r hr x hx
    rcases List.mem_append.mp hr with hr | hr
    · exact find_append_right _ (hC r hr x hx)
    · rcases List.mem_singleton.mp hr with rfl
      rw [hp, hc] at hx
      cases hx
  · intro ra hra rb hrb
    have hra1 := List.mem_append.mp hra
    have hrb1 := List.mem_append.mp hrb
    rcases hra1 with hra1 | hra1
    · rcases hrb1 with hrb1 | hrb1
      · exact hS ra hra1 rb hrb1
      · rw [List.mem_singleton.mp hrb1, hp]
        constructor
        · intro h; cases h
        · intro h
          have h2 := closed_children hC hra1 h
          rw [hfind] at h2
          simp at h2
    · rcases hrb1 with hrb1 | hrb1
      · rw [List.mem_singleton.mp hra1, hc]
        constructor
        · intro h
          have h2 := closed_parents hC hrb1 h
          rw [hfind] at h2
          simp at h2
        · intro h; cases h
      · rw [List.mem_singleton.mp hra1, List.mem_singleton.mp hrb1, hp, hc]

theorem wf_add_royal (g : RoyalsGraph) (w : Wiki) (wiki_id name : String)
    (hC : Closed g) (hS : Symm g) :
    Closed (g.add_royal w wiki_id name) ∧ Symm (g.add_royal w wiki_id name) := by
  unfold RoyalsGraph.add_royal
  split
  · exact ⟨hC, hS⟩
  next h =>
    exact wf_append_isolated g _ (Option.not_isSome_iff_eq_none.mp (by simpa using h))
      rfl rfl hC hS

theorem wf_add_royal_with_birth_year (g : RoyalsGraph) (wiki_id name : String)
    (birth_year : Int) (hC : Closed g) (hS : Symm g) :
    Closed (g.add_royal_with_birth_year wiki_id name birth_year) ∧
      Symm (g.add_royal_with_birth_year wiki_id name birth_year) := by
  unfold RoyalsGraph.add_royal_with_birth_year
  split
  · exact ⟨hC, hS⟩
  next h =>
    exact wf_append_isolated g _ (Option.not_isSome_iff_eq_none.mp (by simpa using h))
      rfl rfl hC hS

theorem wf_add_edge {g g' : RoyalsGraph} {p c : String}
    (h : g.add_edge p c = some g') (hC : Closed g) (hS : Symm g) :
    Closed g' ∧ Symm g' := by
  obtain ⟨hp, hc⟩ := add_edge_isSome h
  have hroyals := add_edge_royals h
  have hfind : ∀ x, g'.find x = (g.find x).map (edgeUpd p c) := by
    intro x
    cases g' with
    | mk l =>
      simp only at hroyals
      subst hroyals
      exact find_map_edgeUpd x
  constructor
  · intro r' hr' x hx
    rw [hroyals] at hr'
    rcases List.mem_map.mp hr' with ⟨r, hr, rfl⟩
    have hsome : (g.find x).isSome = true := by
      rcases List.mem_append.mp hx with hx | hx
      · simp only [edgeUpd] at hx
        split at hx
        · rcases mem_setAdd.mp hx with hx | rfl
          · exact closed_parents hC hr hx
          · exact hp
        · exact closed_parents hC hr hx
      · simp only [edgeUpd] at hx
        split at hx
        · rcases mem_setAdd.mp hx with hx | rfl
          · exact closed_children hC hr hx
          · exact hc
        · exact closed_children hC hr hx
    rcases Option.isSome_iff_exists.mp hsome with ⟨r0, hr0⟩
    rw [hfind x, hr0]
    rfl
  · intro ra' hra' rb' hrb'
    rw [hroyals] at hra' hrb'
    rcases List.mem_map.mp hra' with ⟨ra, hra, rfl⟩
    rcases List.mem_map.mp hrb' with ⟨rb, hrb, rfl⟩
    have hold := hS ra hra rb hrb
    simp only [edgeUpd]
    by_cases h1 : rb.wiki_id = c
    · subst h1
      by_cases h2 : ra.wiki_id = p
      · subst h2
        simp [mem_setAdd]
      · simp [h2, mem_setAdd, hold]
    · by_cases h2 : ra.wiki_id = p
      · subst h2
        simp [h1, mem_setAdd, hold]
      · simp [h1, h2, hold]

theorem wf_acpAddLoop (w : Wiki) (use_birth : Bool) (curr_id : String)
    (curr_depth : Nat) (parent_side : Bool) :
    ∀ (infos : List (String × String × Int)) (g : RoyalsGraph) (queue : List QEntry),
      Closed g → Symm g →
      Closed (acpAddLoop w use_birth curr_id curr_depth parent_side g queue infos).1 ∧
        Symm (acpAddLoop w use_birth curr_id curr_depth parent_side g queue infos).1 := by
  intro infos
  induction infos with
  | nil => intro g queue hC hS; exact ⟨hC, hS⟩
  | cons info rest ih =>
    intro g queue hC hS
    obtain ⟨rid, rname, rby⟩ := info
    have hg1 :
        Closed (if use_birth then g.add_royal_with_birth_year rid rname rby
                else g.add_royal w rid rname) ∧
          Symm (if use_birth then g.add_royal_with_birth_year rid rname rby
                else g.add_royal w rid rname) := by
      split
      · exact wf_add_royal_with_birth_year g rid rname rby hC hS
      · exact wf_add_royal g w rid rname hC hS
    rw [acpAddLoop]
    split
    · exact hg1
    next g2 hE =>
      split at hE
      · exact ih g2 _ (wf_add_edge hE hg1.1 hg1.2).1 (wf_add_edge hE hg1.1 hg1.2).2
      · exact ih g2 _ (wf_add_edge hE hg1.1 hg1.2).1 (wf_add_edge hE hg1.1 hg1.2).2

theorem wf_acpCore (w : Wiki) (use_birth : Bool) (curr_id : String) (curr_depth : Nat)
    (parents_info children_info : Option (List (String × String × Int)))
    (g : RoyalsGraph) (royals_queue : List QEntry) (royals_added : List String)
    (hC : Closed g) (hS : Symm g) :
    Closed (acpCore w use_birth curr_id curr_depth parents_info children_info g
        royals_queue royals_added).1 ∧
      Symm (acpCore w use_birth curr_id curr_depth parents_info children_info g
        royals_queue royals_added).1 := by
  unfold acpCore
  cases parents_info with
  | none =>
    dsimp only
    cases children_info with
    | none => exact ⟨hC, hS⟩
    | some cinfos =>
      have h2 := wf_acpAddLoop w use_birth curr_id curr_depth false cinfos g royals_queue hC hS
      rcases hs2 : acpAddLoop w use_birth curr_id curr_depth false g royals_queue cinfos
        with ⟨g2, q2, e2⟩
      rw [hs2] at h2
      dsimp only
      rw [hs2]
      cases e2
      · exact h2
      · exact h2
  | some pinfos =>
    have h1 := wf_acpAddLoop w use_birth curr_id curr_depth true pinfos g royals_queue hC hS
    rcases hs1 : acpAddLoop w use_birth curr_id curr_depth true g royals_queue pinfos
      with ⟨g1, q1, e1⟩
    rw [hs1] at h1
    dsimp only
    rw [hs1]
    cases e1
    · cases children_info with
      | none => exact h1
      | some cinfos =>
        have h2 := wf_acpAddLoop w use_birth curr_id curr_depth false cinfos g1 q1 h1.1 h1.2
        rcases hs2 : acpAddLoop w use_birth curr_id curr_depth false g1 q1 cinfos
          with ⟨g2, q2, e2⟩
        rw [hs2] at h2
        dsimp only
        rw [hs2]
        cases e2
        · exact h2
        · exact h2
    · exact h1

theorem wf_add_children_parents (g : RoyalsGraph) (w : Wiki) (curr_id : String)
    (curr_depth : Nat) (royals_queue : List QEntry) (royals_added : List String)
    (base_graph : Option RoyalsGraph) (hC : Closed g) (hS : Symm g) :
    Closed (g.add_children_parents w curr_id curr_depth royals_queue royals_added
        base_graph).1 ∧
      Symm (g.add_children_parents w curr_id curr_depth royals_queue royals_added
        base_graph).1 := by
  unfold RoyalsGraph.add_children_parents
  match base_graph with
  | none => exact wf_acpCore w false curr_id curr_depth _ _ g royals_queue royals_added hC hS
  | some base =>
    simp only
    split
    · exact ⟨hC, hS⟩
    · exact wf_acpCore w true curr_id curr_depth _ _ g royals_queue royals_added hC hS

theorem wf_seedRoots (g : RoyalsGraph) (w : Wiki) (root_names : List String)
    (hC : Closed g) (hS : Symm g) :
    Closed (g.seedRoots w root_names).1 ∧ Symm (g.seedRoots w root_names).1 := by
  unfold RoyalsGraph.seedRoots
  suffices h : ∀ (names : List String) (acc : RoyalsGraph × List QEntry),
      Closed acc.1 → Symm acc.1 →
      Closed (names.foldl
          (fun acc name =>
            match w.get_wikidata_id name.trim with
            | none => acc
            | some wiki_id => (acc.1.add_royal w wiki_id name, acc.2 ++ [(0, wiki_id, name)]))
          acc).1 ∧
        Symm (names.foldl
          (fun acc name =>
            match w.get_wikidata_id name.trim with
            | none => acc
            | some wiki_id => (acc.1.add_royal w wiki_id name, acc.2 ++ [(0, wiki_id, name)]))
          acc).1 by
    exact h root_names (g, []) hC hS
  intro names
  induction names with
  | nil => intro acc hC hS; exact ⟨hC, hS⟩
  | cons name rest ih =>
    intro acc hC hS
    simp only [List.foldl_cons]
    cases hw : w.get_wikidata_id name.trim with
    | none =>
      simp only [hw]
      exact ih acc hC hS
    | some wiki_id =>
      simp only [hw]
      exact ih _ (wf_add_royal acc.1 w wiki_id name hC hS).1
        (wf_add_royal acc.1 w wiki_id name hC hS).2

theorem wf_fillLoop (w : Wiki) (max_depth : Nat) :
    ∀ (fuel : Nat) (g : RoyalsGraph) (queue : List QEntry) (added : List String),
      Closed g → Symm g →
      Closed (fillLoop w max_depth fuel g queue added).1 ∧
        Symm (fillLoop w max_depth fuel g queue added).1 := by
  intro fuel
  induction fuel with
  | zero => intro g queue added hC hS; exact ⟨hC, hS⟩
  | succ n ih =>
    intro g queue added hC hS
    match queue with
    | [] => exact ⟨hC, hS⟩
    | (curr_depth, curr_id, nm) :: rest =>
      rw [fillLoop]
      split
      · have hacp := wf_add_children_parents g w curr_id (curr_depth + 1) rest added none hC hS
        split
        next g1 q1 a1 err heq =>
          rw [heq] at hacp
          split
          · exact hacp
          · exact ih g1 q1 a1 hacp.1 hacp.2
      · exact ih g rest added hC hS

theorem wf_fill_graph (g : RoyalsGraph) (w : Wiki) (root_names : List String)
    (max_depth fuel : Nat) (hC : Closed g) (hS : Symm g) :
    Closed (g.fill_graph w root_names max_depth fuel).1 ∧
      Symm (g.fill_graph w root_names max_depth fuel).1 := by
  unfold RoyalsGraph.fill_graph
  have hseed := wf_seedRoots g w root_names hC hS
  exact wf_fillLoop w max_depth fuel _ _ [] hseed.1 hseed.2

theorem reachable_wf {g : RoyalsGraph} (h : Reachable g) : Closed g ∧ Symm g := by
  induction h with
  | empty =>
    constructor
    · intro r hr; cases hr
    · intro ra hra; cases hra
  | add_royal g w wiki_id name _ ih => exact wf_add_royal g w wiki_id name ih.1 ih.2
  | add_royal_with_birth_year g wiki_id name birth_year _ ih =>
    exact wf_add_royal_with_birth_year g wiki_id name birth_year ih.1 ih.2
  | add_edge g g' parent_id child_id _ hE ih => exact wf_add_edge hE ih.1 ih.2
  | add_children_parents g w curr_id curr_depth royals_queue royals_added base_graph _ ih =>
    exact wf_add_children_parents g w curr_id curr_depth royals_queue royals_added
      base_graph ih.1 ih.2
  | fill_graph g w root_names max_depth fuel _ ih =>
    exact wf_fill_graph g w root_names max_depth fuel ih.1 ih.2

/-!  C1: the relationship-symmetry invariant. -/

/-- C1.  Relationship symmetry: in every store reachable from the empty
store by any sequence of the mutating operations (`add_royal`,
`add_royal_with_birth_year`, `add_edge`, `fill_graph`,
`add_children_parents`, under arbitrary oracle responses), and for all
entities `A`, `B` of that store, `A` is in `B`'s parents iff `B` is in
`A`'s children — `add_edge` always installs the matched pair. -/
theorem relationship_symmetry_invariant (g : RoyalsGraph) (h : Reachable g) :
    Symm g :=
  (reachable_wf h).2

/-- Witness for C1: a store built by two adds and one `add_edge`. -/
theorem relationship_symmetry_invariant_witness : Symm wfWitnessStore :=
  relationship_symmetry_invariant wfWitnessStore
    (Reachable.add_edge _ _ "Q1" "Q2"
      (Reachable.add_royal_with_birth_year _ "Q2" "B" 2
        (Reachable.add_royal_with_birth_year _ "Q1" "A" 1 Reachable.empty))
      (by decide))

/-!  C7: idempotent add. -/

/-- C7.  Idempotent add: adding a royal whose wiki id is already present,
by either `add_royal` or `add_royal_with_birth_year` and with any name or
birth year, returns the store unchanged — same entity count and identical
names, birth years, parents and children everywhere. -/
theorem idempotent_add (g : RoyalsGraph) (w : Wiki) (wiki_id name : String)
    (birth_year : Int) (h : (g.find wiki_id).isSome = true) :
    g.add_royal w wiki_id name = g ∧
      g.add_royal_with_birth_year wiki_id name birth_year = g := by
  unfold RoyalsGraph.add_royal RoyalsGraph.add_royal_with_birth_year
  rw [h]
  simp

/-- Witness for C7 at a concrete store containing `Q1`. -/
theorem idempotent_add_witness :
    demoStore.add_royal wNone "Q1" "Other" = demoStore ∧
      demoStore.add_royal_with_birth_year "Q1" "Other" 7 = demoStore := by
  have h : (demoStore.find "Q1").isSome = true := by decide
  simpa using idempotent_add demoStore wNone "Q1" "Other" 7 h

/-!  C9: loading a missing checkpoint fails. -/

/-- C9.  When no file named `graph` exists, `RoyalsGraph.load` raises
`ValueError` (modelled as `none`) instead of returning any store — in
particular it never falls back to a default empty store. -/
theorem load_missing_checkpoint_fails (fs : CheckpointFS)
    (h : fs.find? (fun e => e.1 == "graph") = none) :
    RoyalsGraph.load fs = none := by
  unfold RoyalsGraph.load
  rw [h]
  rfl

/-- Witness for C9 on the empty filesystem. -/
theorem load_missing_checkpoint_fails_witness :
    RoyalsGraph.load ([] : CheckpointFS) = none :=
  load_missing_checkpoint_fails [] (by rfl)

/-!  C8: the checkpoint round trip. -/

/-- C8 counterexample.  On an empty checkpoint directory, saving
`demoStore` and then loading yields no store at all (a `ValueError`), not
a store identical to `demoStore`: `save` writes a timestamped file under
`graph_files/` while `load` reads only the fixed path `graph`. -/
theorem checkpoint_roundtrip_counterexample :
    RoyalsGraph.load (RoyalsGraph.save [] demoStore "2021-01-01_00-00-00") = none ∧
      (RoyalsGraph.load (RoyalsGraph.save [] demoStore "2021-01-01_00-00-00")
        ≠ some demoStore) := by
  constructor
  · rfl
  · intro h
    cases h

/-- C8 as amended.  A `save` never changes what a later `load` returns:
the file written is named `graph_files/...royals`, never `graph`, so
`Load(Save(store))` returns whatever checkpoint was already at `graph`
(and fails when none is). -/
theorem checkpoint_load_ignores_save (fs : CheckpointFS) (g : RoyalsGraph)
    (date_time : String) :
    RoyalsGraph.load (RoyalsGraph.save fs g date_time) = RoyalsGraph.load fs := by
  have hne : savePath date_time g.royals.length ≠ "graph" := by
    intro h
    have hlen := congrArg String.length h
    unfold savePath at hlen
    rw [String.length_append, String.length_append, String.length_append,
      String.length_append] at hlen
    have h1 : ("graph_files/" : String).length = 12 := rfl
    have h2 : ("_RoyalsGraph_" : String).length = 13 := rfl
    have h3 : ("royals" : String).length = 6 := rfl
    have h4 : ("graph" : String).length = 5 := rfl
    omega
  unfold RoyalsGraph.load RoyalsGraph.save
  rw [List.find?_cons_of_neg]
  simpa using hne

/-- Witness for C8's amended statement at a concrete input. -/
theorem checkpoint_load_ignores_save_witness :
    RoyalsGraph.load (RoyalsGraph.save [("graph", demoStore)] demoStore "ts")
      = RoyalsGraph.load [("graph", demoStore)] :=
  checkpoint_load_ignores_save [("graph", demoStore)] demoStore "ts"

/-!  C2: the no-self-relation invariant is violated by the code. -/

/-- C2.  The code violates the no-self-relation invariant (and its own
documented representation invariants `self not in self.parents` /
`self not in self.children` and the precondition `parent_id != child_id`
of `add_edge`): when the knowledge source reports `Q1` as its own parent,
`add_children_parents` — exactly as `fill_graph` invokes it — makes `Q1`
its own parent and its own child. -/
theorem no_self_relation_violated :
    wSelf.get_parents "Q1" = some [("Q1", "A")] ∧
      ∃ r ∈ gSelfResult.royals, r.wiki_id ∈ r.parents ∧ r.wiki_id ∈ r.children := by
  constructor
  · rfl
  · exact ⟨⟨"Q1", "A", 1905, ["Q1"], ["Q1"]⟩, by decide, by decide, by decide⟩

/-!  C6: neighbours of depth-0 roots under `max_depth = 0`. -/

/-- C6 counterexample.  With `max_depth = 0` the immediate neighbours of
a depth-0 root are NOT fetched and added: the root `Q1` (resolved from
the name `Alice`) has the parent `Q2` according to the oracle, the fill
loop runs to completion, and yet `Q2` is absent from the store — because
the popped depth `0` is incremented to `1` before the `<= max_depth`
check, which then fails. -/
theorem depth_zero_neighbors_counterexample :
    wDepth.get_parents "Q1" = some [("Q2", "Parent")] ∧
      (RoyalsGraph.empty.fill_graph wDepth ["Alice"] 0 5).2 = true ∧
      ((RoyalsGraph.empty.fill_graph wDepth ["Alice"] 0 5).1.find "Q1").isSome = true ∧
      (RoyalsGraph.empty.fill_graph wDepth ["Alice"] 0 5).1.find "Q2" = none := by
  refine ⟨rfl, by decide, by decide, by decide⟩

theorem fillLoop_depth_zero (w : Wiki) (fuel : Nat) :
    ∀ queue added g, (fillLoop w 0 fuel g queue added).1 = g := by
  induction fuel with
  | zero => intro queue added g; rfl
  | succ n ih =>
    intro queue added g
    match queue with
    | [] => rfl
    | (d, i, nm) :: rest =>
      show (fillLoop w 0 n g rest added).1 = g
      exact ih rest added g

/-- C6 as amended.  Because the popped depth is incremented before the
bound check, a root's immediate neighbours are expanded only when
`max_depth ≥ 1`; with `max_depth = 0` every dequeued entry is discarded
without expansion and the populated store holds exactly the seeded root
royals, for every oracle, root set and fuel. -/
theorem fill_graph_depth_zero_only_roots (w : Wiki) (root_names : List String)
    (fuel : Nat) :
    (RoyalsGraph.empty.fill_graph w root_names 0 fuel).1
      = (RoyalsGraph.empty.seedRoots w root_names).1 := by
  unfold RoyalsGraph.fill_graph
  exact fillLoop_depth_zero w fuel _ _ _


/-!  Growth lemmas: stores only gain royals and list entries. -/

theorem subset_setAdd (s : List String) (x : String) : s ⊆ setAdd s x := by
  intro y hy
  exact mem_setAdd.mpr (Or.inl hy)

theorem grows_refl (g : RoyalsGraph) : Grows g g :=
  fun _ r h => ⟨r, h, List.Subset.refl _, List.Subset.refl _⟩

theorem grows_trans {g1 g2 g3 : RoyalsGraph} (h1 : Grows g1 g2) (h2 : Grows g2 g3) :
    Grows g1 g3 := by
  intro x r hr
  obtain ⟨r2, hr2, hp2, hc2⟩ := h1 x r hr
  obtain ⟨r3, hr3, hp3, hc3⟩ := h2 x r2 hr2
  exact ⟨r3, hr3, List.Subset.trans hp2 hp3, List.Subset.trans hc2 hc3⟩

theorem find_isSome_grows {g g' : RoyalsGraph} (hG : Grows g g') {x : String}
    (h : (g.find x).isSome = true) : (g'.find x).isSome = true := by
  rcases Option.isSome_iff_exists.mp h with ⟨r, hr⟩
  obtain ⟨r', hr', -, -⟩ := hG x r hr
  rw [hr']
  rfl

theorem grows_mk_append (g : RoyalsGraph) (l : List Royal) :
    Grows g (RoyalsGraph.mk (g.royals ++ l)) := by
  intro x r hr
  refine ⟨r, ?_, List.Subset.refl _, List.Subset.refl _⟩
  unfold RoyalsGraph.find at *
  rw [List.find?_append, hr]
  rfl

theorem add_edge_find {g g' : RoyalsGraph} {p c : String}
    (h : g.add_edge p c = some g') (x : String) :
    g'.find x = (g.find x).map (edgeUpd p c) := by
  have hroyals := add_edge_royals h
  cases g' with
  | mk l =>
    simp only at hroyals
    subst hroyals
    exact find_map_edgeUpd x

theorem grows_add_edge {g g' : RoyalsGraph} {p c : String}
    (h : g.add_edge p c = some g') : Grows g g' := by
  intro x r hr
  refine ⟨edgeUpd p c r, ?_, ?_, ?_⟩
  · rw [add_edge_find h, hr]
    rfl
  · show r.parents ⊆ (edgeUpd p c r).parents
    unfold edgeUpd
    dsimp only
    split
    · exact subset_setAdd _ _
    · exact List.Subset.refl _
  · show r.children ⊆ (edgeUpd p c r).children
    unfold edgeUpd
    dsimp only
    split
    · exact subset_setAdd _ _
    · exact List.Subset.refl _

theorem grows_add_royal (g : RoyalsGraph) (w : Wiki) (wiki_id name : String) :
    Grows g (g.add_royal w wiki_id name) := by
  unfold RoyalsGraph.add_royal
  split
  · exact grows_refl g
  · exact grows_mk_append g _

theorem grows_add_royal_with_birth_year (g : RoyalsGraph) (wiki_id name : String)
    (birth_year : Int) : Grows g (g.add_royal_with_birth_year wiki_id name birth_year) := by
  unfold RoyalsGraph.add_royal_with_birth_year
  split
  · exact grows_refl g
  · exact grows_mk_append g _

theorem find_isSome_mk_append {g : RoyalsGraph} {l : List Royal} {x : String}
    (h : ((RoyalsGraph.mk (g.royals ++ l)).find x).isSome = true) :
    (g.find x).isSome = true ∨ ∃ r ∈ l, r.wiki_id = x := by
  unfold RoyalsGraph.find at h
  rw [List.find?_append] at h
  cases hg : g.royals.find? (fun r => r.wiki_id == x) with
  | some r => exact Or.inl (by unfold RoyalsGraph.find; rw [hg]; rfl)
  | none =>
    rw [hg] at h
    simp only [Option.none_or] at h
    right
    rcases Option.isSome_iff_exists.mp h with ⟨r, hr⟩
    refine ⟨r, List.mem_of_find?_eq_some hr, ?_⟩
    have := List.find?_some hr
    simpa using this

theorem add_royal_presence {g : RoyalsGraph} {w : Wiki} {wiki_id name x : String}
    (h : ((g.add_royal w wiki_id name).find x).isSome = true) :
    (g.find x).isSome = true ∨ x = wiki_id := by
  unfold RoyalsGraph.add_royal at h
  split at h
  · exact Or.inl h
  · rcases find_isSome_mk_append h with h | ⟨r, hr, hx⟩
    · exact Or.inl h
    · rcases List.mem_singleton.mp hr with rfl
      exact Or.inr hx.symm

theorem add_royal_with_birth_year_presence {g : RoyalsGraph} {wiki_id name x : String}
    {birth_year : Int}
    (h : ((g.add_royal_with_birth_year wiki_id name birth_year).find x).isSome = true) :
    (g.find x).isSome = true ∨ x = wiki_id := by
  unfold RoyalsGraph.add_royal_with_birth_year at h
  split at h
  · exact Or.inl h
  · rcases find_isSome_mk_append h with h | ⟨r, hr, hx⟩
    · exact Or.inl h
    · rcases List.mem_singleton.mp hr with rfl
      exact Or.inr hx.symm

theorem find_self_mk_append (g : RoyalsGraph) (r0 : Royal) :
    ((RoyalsGraph.mk (g.royals ++ [r0])).find r0.wiki_id).isSome = true := by
  unfold RoyalsGraph.find
  rw [List.find?_append]
  cases hg : g.royals.find? (fun r => r.wiki_id == r0.wiki_id) with
  | some r => rfl
  | none => simp [List.find?]

theorem add_royal_find_self (g : RoyalsGraph) (w : Wiki) (wiki_id name : String) :
    ((g.add_royal w wiki_id name).find wiki_id).isSome = true := by
  unfold RoyalsGraph.add_royal
  split
  · assumption
  · exact find_self_mk_append g _

theorem add_royal_with_birth_year_find_self (g : RoyalsGraph) (wiki_id name : String)
    (birth_year : Int) :
    ((g.add_royal_with_birth_year wiki_id name birth_year).find wiki_id).isSome = true := by
  unfold RoyalsGraph.add_royal_with_birth_year
  split
  · assumption
  · exact find_self_mk_append g _

theorem add_edge_presence {g g' : RoyalsGraph} {p c : String}
    (h : g.add_edge p c = some g') (x : String) :
    (g'.find x).isSome = (g.find x).isSome := by
  rw [add_edge_find h x]
  cases g.find x <;> rfl

theorem add_edge_total {g : RoyalsGraph} {p c : String}
    (hp : (g.find p).isSome = true) (hc : (g.find c).isSome = true) :
    ∃ g', g.add_edge p c = some g' := by
  unfold RoyalsGraph.add_edge
  rw [hp, hc]
  exact ⟨_, rfl⟩

theorem add_edge_adj_parent {g g' : RoyalsGraph} {p c : String}
    (h : g.add_edge p c = some g') : adjB g' c p = true := by
  obtain ⟨-, hc⟩ := add_edge_isSome h
  rcases Option.isSome_iff_exists.mp hc with ⟨rc, hrc⟩
  have hfc : g'.find c = some (edgeUpd p c rc) := by
    rw [add_edge_find h, hrc]
    rfl
  unfold adjB
  rw [hfc]
  have hid : rc.wiki_id = c := find_wiki_id hrc
  have hmem : p ∈ (edgeUpd p c rc).parents := by
    unfold edgeUpd
    dsimp only
    rw [if_pos (by simpa using hid)]
    exact mem_setAdd.mpr (Or.inr rfl)
  simp [hmem]

theorem add_edge_adj_child {g g' : RoyalsGraph} {p c : String}
    (h : g.add_edge p c = some g') : adjB g' p c = true := by
  obtain ⟨hp, -⟩ := add_edge_isSome h
  rcases Option.isSome_iff_exists.mp hp with ⟨rp, hrp⟩
  have hfp : g'.find p = some (edgeUpd p c rp) := by
    rw [add_edge_find h, hrp]
    rfl
  unfold adjB
  rw [hfp]
  have hid : rp.wiki_id = p := find_wiki_id hrp
  have hmem : c ∈ (edgeUpd p c rp).children := by
    unfold edgeUpd
    dsimp only
    rw [if_pos (by simpa using hid)]
    exact mem_setAdd.mpr (Or.inr rfl)
  simp [hmem]

theorem adjB_grows {g g' : RoyalsGraph} (hG : Grows g g') {a b : String}
    (h : adjB g a b = true) : adjB g' a b = true := by
  unfold adjB at h ⊢
  cases hfa : g.find a with
  | none => rw [hfa] at h; cases h
  | some r =>
    rw [hfa] at h
    obtain ⟨r', hr', hps, hcs⟩ := hG a r hfa
    rw [hr']
    simp only [Bool.or_eq_true, decide_eq_true_eq] at h ⊢
    rcases h with h | h
    · exact Or.inl (hps h)
    · exact Or.inr (hcs h)

theorem NearLe_grows {g g' : RoyalsGraph} (hG : Grows g g') {S : List String} :
    ∀ {k : Nat} {x : String}, NearLe g S k x → NearLe g' S k x := by
  intro k
  induction k with
  | zero => intro x h; exact h
  | succ n ih =>
    intro x h
    rcases h with h | ⟨y, hy, hadj⟩
    · exact Or.inl (ih h)
    · exact Or.inr ⟨y, ih hy, adjB_grows hG hadj⟩

theorem NearLe_le {g : RoyalsGraph} {S : List String} {k m : Nat} (hkm : k ≤ m) :
    ∀ {x : String}, NearLe g S k x → NearLe g S m x := by
  induction hkm with
  | refl => intro x h; exact h
  | step _ ih => intro x h; exact Or.inl (ih h)

/-!  The depth invariant carried through the expansion loops. -/

theorem acpAddLoop_near (w : Wiki) (use_birth : Bool) (curr_id : String)
    (parent_side : Bool) (S : List String) (d k : Nat) (hkd : k + 1 ≤ d) :
    ∀ (infos : List (String × String × Int)) (g : RoyalsGraph) (queue : List QEntry),
      (g.find curr_id).isSome = true → NearLe g S k curr_id →
      FillStoreOk g S d → FillQueueOk g S queue →
      Grows g (acpAddLoop w use_birth curr_id (k + 1) parent_side g queue infos).1 ∧
        NearLe (acpAddLoop w use_birth curr_id (k + 1) parent_side g queue infos).1
          S k curr_id ∧
        FillStoreOk (acpAddLoop w use_birth curr_id (k + 1) parent_side g queue infos).1
          S d ∧
        FillQueueOk (acpAddLoop w use_birth curr_id (k + 1) parent_side g queue infos).1
          S (acpAddLoop w use_birth curr_id (k + 1) parent_side g queue infos).2.1 := by
  intro infos
  induction infos with
  | nil =>
    intro g queue hcur hnear hstore hqueue
    exact ⟨grows_refl g, hnear, hstore, hqueue⟩
  | cons info rest ih =>
    intro g queue hcur hnear hstore hqueue
    obtain ⟨rid, rname, rby⟩ := info
    have hg1G : Grows g (if use_birth then g.add_royal_with_birth_year rid rname rby
        else g.add_royal w rid rname) := by
      split
      · exact grows_add_royal_with_birth_year g rid rname rby
      · exact grows_add_royal g w rid rname
    have hg1rid : ((if use_birth then g.add_royal_with_birth_year rid rname rby
        else g.add_royal w rid rname).find rid).isSome = true := by
      split
      · exact add_royal_with_birth_year_find_self g rid rname rby
      · exact add_royal_find_self g w rid rname
    have hg1pres : ∀ x, ((if use_birth then g.add_royal_with_birth_year rid rname rby
        else g.add_royal w rid rname).find x).isSome = true →
        (g.find x).isSome = true ∨ x = rid := by
      intro x hx
      split at hx
      · exact add_royal_with_birth_year_presence hx
      · exact add_royal_presence hx
    have hg1cur : ((if use_birth then g.add_royal_with_birth_year rid rname rby
        else g.add_royal w rid rname).find curr_id).isSome = true :=
      find_isSome_grows hg1G hcur
    have hE : ∃ g2, (if parent_side then
        (if use_birth then g.add_royal_with_birth_year rid rname rby
          else g.add_royal w rid rname).add_edge rid curr_id
        else (if use_birth then g.add_royal_with_birth_year rid rname rby
          else g.add_royal w rid rname).add_edge curr_id rid) = some g2 := by
      split
      · exact add_edge_total hg1rid hg1cur
      · exact add_edge_total hg1cur hg1rid
    obtain ⟨g2, hg2⟩ := hE
    have hg2G : Grows (if use_birth then g.add_royal_with_birth_year rid rname rby
        else g.add_royal w rid rname) g2 := by
      split at hg2
      · exact grows_add_edge hg2
      · exact grows_add_edge hg2
    have hpres2 : ∀ x, (g2.find x).isSome
        = ((if use_birth then g.add_royal_with_birth_year rid rname rby
            else g.add_royal w rid rname).find x).isSome := by
      intro x
      split at hg2
      · exact add_edge_presence hg2 x
      · exact add_edge_presence hg2 x
    have hadj : adjB g2 curr_id rid = true := by
      split at hg2
      · exact add_edge_adj_parent hg2
      · exact add_edge_adj_child hg2
    have hGG : Grows g g2 := grows_trans hg1G hg2G
    have hcur2 : (g2.find curr_id).isSome = true := by
      rw [hpres2 curr_id]
      exact hg1cur
    have hnear2 : NearLe g2 S k curr_id := NearLe_grows hGG hnear
    have hrid2 : (g2.find rid).isSome = true := by
      rw [hpres2 rid]
      exact hg1rid
    have hrid2near : NearLe g2 S (k + 1) rid := Or.inr ⟨curr_id, hnear2, hadj⟩
    have hstore2 : FillStoreOk g2 S d := by
      intro x hx
      rw [hpres2 x] at hx
      rcases hg1pres x hx with hx0 | rfl
      · exact NearLe_grows hGG (hstore x hx0)
      · exact NearLe_le hkd hrid2near
    have hqueue2 : FillQueueOk g2 S (queue ++ [(k + 1, rid, rname)]) := by
      intro e he
      rcases List.mem_append.mp he with he | he
      · obtain ⟨h1, h2⟩ := hqueue e he
        exact ⟨find_isSome_grows hGG h1, NearLe_grows hGG h2⟩
      · rcases List.mem_singleton.mp he with rfl
        exact ⟨hrid2, hrid2near⟩
    rw [acpAddLoop]
    split
    next heq =>
      rw [heq] at hg2
      simp at hg2
    next g2x heq =>
      rw [hg2] at heq
      injection heq with h2eq
      subst h2eq
      have hrest := ih g2 (queue ++ [(k + 1, rid, rname)]) hcur2 hnear2 hstore2 hqueue2
      exact ⟨grows_trans hGG hrest.1, hrest.2⟩


theorem acpCore_near (w : Wiki) (use_birth : Bool) (curr_id : String) (S : List String)
    (d k : Nat) (hkd : k + 1 ≤ d)
    (parents_info children_info : Option (List (String × String × Int)))
    (g : RoyalsGraph) (queue : List QEntry) (added : List String)
    (hcur : (g.find curr_id).isSome = true) (hnear : NearLe g S k curr_id)
    (hstore : FillStoreOk g S d) (hqueue : FillQueueOk g S queue) :
    FillStoreOk (acpCore w use_birth curr_id (k + 1) parents_info children_info g
        queue added).1 S d ∧
      FillQueueOk (acpCore w use_birth curr_id (k + 1) parents_info children_info g
        queue added).1 S
        (acpCore w use_birth curr_id (k + 1) parents_info children_info g
          queue added).2.1 := by
  unfold acpCore
  cases parents_info with
  | none =>
    dsimp only
    cases children_info with
    | none => exact ⟨hstore, hqueue⟩
    | some cinfos =>
      have h2 := acpAddLoop_near w use_birth curr_id false S d k hkd cinfos g queue
        hcur hnear hstore hqueue
      rcases hs2 : acpAddLoop w use_birth curr_id (k + 1) false g queue cinfos
        with ⟨g2, q2, e2⟩
      rw [hs2] at h2
      dsimp only
      rw [hs2]
      cases e2
      · exact ⟨h2.2.2.1, h2.2.2.2⟩
      · exact ⟨h2.2.2.1, h2.2.2.2⟩
  | some pinfos =>
    have h1 := acpAddLoop_near w use_birth curr_id true S d k hkd pinfos g queue
      hcur hnear hstore hqueue
    rcases hs1 : acpAddLoop w use_birth curr_id (k + 1) true g queue pinfos
      with ⟨g1, q1, e1⟩
    rw [hs1] at h1
    dsimp only
    rw [hs1]
    cases e1
    · cases children_info with
      | none => exact ⟨h1.2.2.1, h1.2.2.2⟩
      | some cinfos =>
        have hcur1 : (g1.find curr_id).isSome = true := find_isSome_grows h1.1 hcur
        have h2 := acpAddLoop_near w use_birth curr_id false S d k hkd cinfos g1 q1
          hcur1 h1.2.1 h1.2.2.1 h1.2.2.2
        rcases hs2 : acpAddLoop w use_birth curr_id (k + 1) false g1 q1 cinfos
          with ⟨g2, q2, e2⟩
        rw [hs2] at h2
        dsimp only
        rw [hs2]
        cases e2
        · exact ⟨h2.2.2.1, h2.2.2.2⟩
        · exact ⟨h2.2.2.1, h2.2.2.2⟩
    · exact ⟨h1.2.2.1, h1.2.2.2⟩

theorem fillLoop_near (w : Wiki) (S : List String) (d : Nat) :
    ∀ (fuel : Nat) (g : RoyalsGraph) (queue : List QEntry) (added : List String),
      FillStoreOk g S d → FillQueueOk g S queue →
      FillStoreOk (fillLoop w d fuel g queue added).1 S d := by
  intro fuel
  induction fuel with
  | zero => intro g queue added hstore hqueue; exact hstore
  | succ n ih =>
    intro g queue added hstore hqueue
    match queue with
    | [] => exact hstore
    | (k, id, nm) :: rest =>
      rw [fillLoop]
      split
      next hle =>
        have hq := hqueue (k, id, nm) (List.mem_cons_self _ _)
        have hrest : FillQueueOk g S rest := fun e he => hqueue e (List.mem_cons_of_mem _ he)
        have hacp := acpCore_near w false id S d k hle
          ((w.get_parents id).map (List.map (fun q => (q.1, q.2, (0 : Int)))))
          ((w.get_children id).map (List.map (fun q => (q.1, q.2, (0 : Int)))))
          g rest added hq.1 hq.2 hstore hrest
        rcases hs : g.add_children_parents w id (k + 1) rest added none
          with ⟨g1, q1, a1, err⟩
        have hs2 : acpCore w false id (k + 1)
            ((w.get_parents id).map (List.map (fun q => (q.1, q.2, (0 : Int)))))
            ((w.get_children id).map (List.map (fun q => (q.1, q.2, (0 : Int)))))
            g rest added = (g1, q1, a1, err) := hs
        rw [hs2] at hacp
        cases err
        · exact ih g1 q1 a1 hacp.1 hacp.2
        · exact hacp.1
      next hgt =>
        exact ih g rest added hstore (fun e he => hqueue e (List.mem_cons_of_mem _ he))

theorem seedRoots_near (w : Wiki) (S : List String) (d : Nat) :
    ∀ (names : List String) (acc : RoyalsGraph × List QEntry),
      (∀ nm ∈ names, ∀ id, w.get_wikidata_id nm.trim = some id → id ∈ S) →
      FillStoreOk acc.1 S d → FillQueueOk acc.1 S acc.2 →
      FillStoreOk (names.foldl
          (fun acc name =>
            match w.get_wikidata_id name.trim with
            | none => acc
            | some wiki_id => (acc.1.add_royal w wiki_id name, acc.2 ++ [(0, wiki_id, name)]))
          acc).1 S d ∧
        FillQueueOk (names.foldl
          (fun acc name =>
            match w.get_wikidata_id name.trim with
            | none => acc
            | some wiki_id => (acc.1.add_royal w wiki_id name, acc.2 ++ [(0, wiki_id, name)]))
          acc).1 S
          (names.foldl
          (fun acc name =>
            match w.get_wikidata_id name.trim with
            | none => acc
            | some wiki_id => (acc.1.add_royal w wiki_id name, acc.2 ++ [(0, wiki_id, name)]))
          acc).2 := by
  intro names
  induction names with
  | nil => intro acc hnames hstore hqueue; exact ⟨hstore, hqueue⟩
  | cons name rest ih =>
    intro acc hnames hstore hqueue
    simp only [List.foldl_cons]
    have hrest : ∀ nm ∈ rest, ∀ id, w.get_wikidata_id nm.trim = some id → id ∈ S :=
      fun nm hnm => hnames nm (List.mem_cons_of_mem _ hnm)
    cases hw : w.get_wikidata_id name.trim with
    | none =>
      simp only [hw]
      exact ih acc hrest hstore hqueue
    | some wiki_id =>
      simp only [hw]
      have hidS : wiki_id ∈ S := hnames name (List.mem_cons_self _ _) wiki_id hw
      have hG : Grows acc.1 (acc.1.add_royal w wiki_id name) :=
        grows_add_royal acc.1 w wiki_id name
      refine ih (acc.1.add_royal w wiki_id name, acc.2 ++ [(0, wiki_id, name)]) hrest ?_ ?_
      · intro x hx
        rcases add_royal_presence hx with hx0 | rfl
        · exact NearLe_grows hG (hstore x hx0)
        · exact NearLe_le (Nat.zero_le d) hidS
      · intro e he
        rcases List.mem_append.mp he with he | he
        · obtain ⟨h1, h2⟩ := hqueue e he
          exact ⟨find_isSome_grows hG h1, NearLe_grows hG h2⟩
        · rcases List.mem_singleton.mp he with rfl
          exact ⟨add_royal_find_self acc.1 w wiki_id name, hidS⟩

/-!  C5: the depth bound of `fill_graph`. -/

/-- C5.  Depth bound: a dequeued frontier entry recorded at depth `k` is
expanded only when `k + 1 ≤ max_depth` — an entry whose incremented depth
exceeds the bound is discarded without expansion (first conjunct) — and
consequently every entity in the store populated by `fill_graph` from the
empty store lies within `max_depth` discovery steps of the resolved root
set (second conjunct). -/
theorem fill_graph_depth_bound (w : Wiki) (root_names : List String)
    (max_depth fuel : Nat) :
    (∀ (g : RoyalsGraph) (entry : QEntry) (rest : List QEntry) (added : List String),
        max_depth < entry.1 + 1 →
        fillLoop w max_depth (fuel + 1) g (entry :: rest) added
          = fillLoop w max_depth fuel g rest added) ∧
      ∀ x, (((RoyalsGraph.empty.fill_graph w root_names max_depth fuel).1).find x).isSome
          = true →
        NearLe (RoyalsGraph.empty.fill_graph w root_names max_depth fuel).1
          (rootIds w root_names) max_depth x := by
  constructor
  · intro g entry rest added hgt
    obtain ⟨k, id, nm⟩ := entry
    have hgt2 : max_depth < k + 1 := hgt
    rw [fillLoop, if_neg (by omega)]
  · have hempty_store : FillStoreOk RoyalsGraph.empty (rootIds w root_names) max_depth := by
      intro x hx
      simp [RoyalsGraph.empty, RoyalsGraph.find, List.find?] at hx
    have hempty_queue : FillQueueOk RoyalsGraph.empty (rootIds w root_names) [] := by
      intro e he
      cases he
    have hnames : ∀ nm ∈ root_names, ∀ id, w.get_wikidata_id nm.trim = some id →
        id ∈ rootIds w root_names := by
      intro nm hnm id hid
      exact List.mem_filterMap.mpr ⟨nm, hnm, hid⟩
    have hseed := seedRoots_near w (rootIds w root_names) max_depth root_names
      (RoyalsGraph.empty, []) hnames hempty_store hempty_queue
    unfold RoyalsGraph.fill_graph
    rcases hs : RoyalsGraph.empty.seedRoots w root_names with ⟨g0, q0⟩
    have hs2 : (root_names.foldl
        (fun acc name =>
          match w.get_wikidata_id name.trim with
          | none => acc
          | some wiki_id => (acc.1.add_royal w wiki_id name, acc.2 ++ [(0, wiki_id, name)]))
        (RoyalsGraph.empty, [])) = (g0, q0) := hs
    rw [hs2] at hseed
    exact fillLoop_near w (rootIds w root_names) max_depth fuel g0 q0 [] hseed.1 hseed.2

/-- Witness for C5: the discard conjunct at `max_depth = 0`, and the
depth bound evaluated on a store filled to depth 1. -/
theorem fill_graph_depth_bound_witness :
    (fillLoop wDepth 0 1 demoStore [(0, "Q1", "A")] []
        = fillLoop wDepth 0 0 demoStore [] []) ∧
      NearLe (RoyalsGraph.empty.fill_graph wDepth ["Alice"] 1 8).1
        (rootIds wDepth ["Alice"]) 1 "Q2" :=
  ⟨(fill_graph_depth_bound wDepth [] 0 0).1 demoStore (0, "Q1", "A") [] [] (by decide),
    (fill_graph_depth_bound wDepth ["Alice"] 1 8).2 "Q2" (by decide)⟩


/-!  Lemmas about the shared search loop machinery. -/

theorem popLast_spec : ∀ {l rest : List SEntry} {e : SEntry},
    popLast l = some (e, rest) → rest ++ [e] = l := by
  intro l
  induction l with
  | nil => intro rest e h; cases h
  | cons a l ih =>
    intro rest e h
    cases l with
    | nil =>
      injection h with h
      injection h with h1 h2
      subst h1
      subst h2
      rfl
    | cons b l2 =>
      rw [popLast] at h
      cases hx : popLast (b :: l2) with
      | none => rw [hx] at h; cases h
      | some pr =>
        obtain ⟨x, rest2⟩ := pr
        rw [hx] at h
        injection h with h
        injection h with h1 h2
        subst h1
        subst h2
        have hspec := ih hx
        rw [List.cons_append, hspec]

theorem popLast_isSome : ∀ (e : SEntry) (rest : List SEntry),
    (popLast (e :: rest)).isSome = true := by
  intro e rest
  induction rest generalizing e with
  | nil => rfl
  | cons b l ih =>
    rw [popLast]
    cases hx : popLast (b :: l) with
    | none =>
      have hb := ih b
      rw [hx] at hb
      cases hb
    | some pr => rfl

theorem popFrom_none {mode : SearchMode} {q : List SEntry}
    (h : popFrom mode q = none) : q = [] := by
  cases q with
  | nil => rfl
  | cons e rest =>
    cases mode with
    | breadth => cases h
    | depth =>
      have := popLast_isSome e rest
      rw [show popFrom SearchMode.depth (e :: rest) = popLast (e :: rest) from rfl] at h
      rw [h] at this
      cases this

theorem popFrom_breadth (e : SEntry) (rest : List SEntry) :
    popFrom .breadth (e :: rest) = some (e, rest) := rfl

theorem popFrom_cover {mode : SearchMode} {q rest : List SEntry} {e : SEntry}
    (h : popFrom mode q = some (e, rest)) :
    e ∈ q ∧ (∀ x ∈ rest, x ∈ q) ∧ (∀ x ∈ q, x = e ∨ x ∈ rest) ∧
      rest.length + 1 = q.length := by
  cases q with
  | nil => cases mode <;> cases h
  | cons e0 rest0 =>
    cases mode with
    | breadth =>
      injection h with h
      injection h with h1 h2
      subst h1
      subst h2
      refine ⟨List.mem_cons_self _ _, fun x hx => List.mem_cons_of_mem _ hx, ?_, rfl⟩
      intro x hx
      rcases List.mem_cons.mp hx with rfl | hx
      · exact Or.inl rfl
      · exact Or.inr hx
    | depth =>
      have hspec : rest ++ [e] = e0 :: rest0 := popLast_spec h
      constructor
      · rw [← hspec]
        exact List.mem_append_right _ (List.mem_singleton.mpr rfl)
      constructor
      · intro x hx
        rw [← hspec]
        exact List.mem_append_left _ hx
      constructor
      · intro x hx
        rw [← hspec] at hx
        rcases List.mem_append.mp hx with hx | hx
        · exact Or.inr hx
        · exact Or.inl (List.mem_singleton.mp hx)
      · have hlen := congrArg List.length hspec
        simpa using hlen

theorem visitNbrs_spec (g : RoyalsGraph) (id2 : String) (path : List String) :
    ∀ (l visited : List String),
      (visitNbrs g id2 path l visited).2.2
          = visited ++ ((visitNbrs g id2 path l visited).2.1.map (fun e => e.1.wiki_id)) ∧
        (∀ e ∈ (visitNbrs g id2 path l visited).2.1,
          g.find e.1.wiki_id = some e.1 ∧ e.1.wiki_id ≠ id2 ∧
            e.2 = path ++ [e.1.wiki_id] ∧ e.1.wiki_id ∈ l ∧ e.1.wiki_id ∉ visited) ∧
        ((visitNbrs g id2 path l visited).2.1.map (fun e => e.1.wiki_id)).Nodup ∧
        (∀ p0, (visitNbrs g id2 path l visited).1 = some p0 →
          p0 = path ++ [id2] ∧ id2 ∈ l ∧ (g.find id2).isSome = true) ∧
        ((visitNbrs g id2 path l visited).1 = none →
          ∀ uid ∈ l, (g.find uid).isSome = true →
            uid ∈ (visitNbrs g id2 path l visited).2.2 ∧ uid ≠ id2) := by
  intro l
  induction l with
  | nil =>
    intro visited
    refine ⟨by simp [visitNbrs], ?_, by simp [visitNbrs], ?_, ?_⟩
    · intro e he
      simp [visitNbrs] at he
    · intro p0 hp0
      simp [visitNbrs] at hp0
    · intro hres uid huid
      simp at huid
  | cons uid rest ih =>
    intro visited
    cases hf : g.find uid with
    | none =>
      have hred : visitNbrs g id2 path (uid :: rest) visited
          = visitNbrs g id2 path rest visited := by
        rw [visitNbrs, hf]
      rw [hred]
      obtain ⟨i1, i2, i3, i4, i5⟩ := ih visited
      refine ⟨i1, ?_, i3, ?_, ?_⟩
      · intro e he
        obtain ⟨a, b, c, d, f⟩ := i2 e he
        exact ⟨a, b, c, List.mem_cons_of_mem _ d, f⟩
      · intro p0 hp0
        obtain ⟨a, b, c⟩ := i4 p0 hp0
        exact ⟨a, List.mem_cons_of_mem _ b, c⟩
      · intro hres u hu husome
        rcases List.mem_cons.mp hu with rfl | hu
        · rw [hf] at husome
          cases husome
        · exact i5 hres u hu husome
    | some u =>
      have huid : u.wiki_id = uid := find_wiki_id hf
      cases hbeq : u.wiki_id == id2 with
      | true =>
        have hid2 : u.wiki_id = id2 := by simpa using hbeq
        have hred : visitNbrs g id2 path (uid :: rest) visited
            = (some (path ++ [u.wiki_id]), [], visited) := by
          rw [visitNbrs, hf]
          dsimp only
          rw [if_pos hbeq]
        rw [hred]
        refine ⟨by simp, ?_, by simp, ?_, ?_⟩
        · intro e he
          simp at he
        · intro p0 hp0
          injection hp0 with hp0
          subst hp0
          refine ⟨by rw [hid2], ?_, ?_⟩
          · rw [← hid2, huid]
            exact List.mem_cons_self _ _
          · rw [← hid2, huid, hf]
            rfl
        · intro hres
          cases hres
      | false =>
        have hneq : u.wiki_id ≠ id2 := by simpa using hbeq
        have hcond : ¬ ((u.wiki_id == id2) = true) := by simp [hbeq]
        by_cases hvst : uid ∈ visited
        · have hred : visitNbrs g id2 path (uid :: rest) visited
              = visitNbrs g id2 path rest visited := by
            rw [visitNbrs, hf]
            dsimp only
            rw [if_neg hcond, if_pos hvst]
          rw [hred]
          obtain ⟨i1, i2, i3, i4, i5⟩ := ih visited
          refine ⟨i1, ?_, i3, ?_, ?_⟩
          · intro e he
            obtain ⟨a, b, c, d, f⟩ := i2 e he
            exact ⟨a, b, c, List.mem_cons_of_mem _ d, f⟩
          · intro p0 hp0
            obtain ⟨a, b, c⟩ := i4 p0 hp0
            exact ⟨a, List.mem_cons_of_mem _ b, c⟩
          · intro hres u0 hu husome
            rcases List.mem_cons.mp hu with rfl | hu
            · refine ⟨?_, huid ▸ hneq⟩
              obtain ⟨iv1, -, -, -, -⟩ := ih visited
              rw [iv1]
              exact List.mem_append_left _ hvst
            · exact i5 hres u0 hu husome
        · have hred : visitNbrs g id2 path (uid :: rest) visited
              = ((visitNbrs g id2 path rest (visited ++ [uid])).1,
                 (u, path ++ [u.wiki_id])
                   :: (visitNbrs g id2 path rest (visited ++ [uid])).2.1,
                 (visitNbrs g id2 path rest (visited ++ [uid])).2.2) := by
            rw [visitNbrs, hf]
            dsimp only
            rw [if_neg hcond, if_neg hvst]
          rw [hred]
          obtain ⟨i1, i2, i3, i4, i5⟩ := ih (visited ++ [uid])
          refine ⟨?_, ?_, ?_, ?_, ?_⟩
          · simp only [List.map_cons, huid]
            rw [i1]
            simp
          · intro e he
            rcases List.mem_cons.mp he with rfl | he
            · exact ⟨by rw [huid]; exact hf, hneq, rfl,
                by rw [huid]; exact List.mem_cons_self _ _, by rw [huid]; exact hvst⟩
            · obtain ⟨a, b, c, d, f⟩ := i2 e he
              have hfr : e.1.wiki_id ∉ visited := fun hx =>
                f (List.mem_append_left _ hx)
              exact ⟨a, b, c, List.mem_cons_of_mem _ d, hfr⟩
          · simp only [List.map_cons, huid]
            refine List.Nodup.cons ?_ i3
            intro hmem
            rcases List.mem_map.mp hmem with ⟨e, he, heq⟩
            obtain ⟨-, -, -, -, f⟩ := i2 e he
            exact f (List.mem_append_right _ (by simp [heq]))
          · intro p0 hp0
            obtain ⟨a, b, c⟩ := i4 p0 hp0
            exact ⟨a, List.mem_cons_of_mem _ b, c⟩
          · intro hres u0 hu husome
            rcases List.mem_cons.mp hu with rfl | hu
            · refine ⟨?_, huid ▸ hneq⟩
              rw [i1]
              exact List.mem_append_left _
                (List.mem_append_right _ (List.mem_singleton.mpr rfl))
            · exact i5 hres u0 hu husome


theorem head?_append_left {p q : List String} {a : String}
    (h : p.head? = some a) : (p ++ q).head? = some a := by
  cases p with
  | nil => cases h
  | cons x t => exact h

theorem chainOk_append_last {g : RoyalsGraph} : ∀ {p : List String} {a b : String},
    chainOk g p = true → p.getLast? = some a → adjB g a b = true →
    chainOk g (p ++ [b]) = true := by
  intro p
  induction p with
  | nil =>
    intro a b hc hl
    cases hl
  | cons x rest ih =>
    intro a b hc hl hadj
    cases rest with
    | nil =>
      have hax : a = x := by
        have : some x = some a := hl
        injection this with h
        exact h.symm
      subst hax
      show (adjB g a b && chainOk g [b]) = true
      rw [hadj]
      rfl
    | cons y rest2 =>
      have hc2 : adjB g x y = true ∧ chainOk g (y :: rest2) = true := by
        have : (adjB g x y && chainOk g (y :: rest2)) = true := hc
        exact Bool.and_eq_true_iff.mp this
      have hl2 : (y :: rest2).getLast? = some a := by
        rw [← List.getLast?_cons_cons]
        exact hl
      have hrec := ih hc2.2 hl2 hadj
      show (adjB g x y && chainOk g ((y :: rest2) ++ [b])) = true
      rw [hc2.1, hrec]
      rfl

theorem adjB_of_mem_nbrIds {g : RoyalsGraph} {v : Royal} {y : String}
    (hfind : g.find v.wiki_id = some v) (hy : y ∈ nbrIds v) :
    adjB g v.wiki_id y = true := by
  unfold adjB
  rw [hfind]
  have hmem : y ∈ v.parents ++ v.children := List.mem_dedup.mp hy
  rcases List.mem_append.mp hmem with h | h <;> simp [h]

theorem searchLoop_found_walk (g : RoyalsGraph) (id1 id2 : String) (mode : SearchMode) :
    ∀ (fuel : Nat) (queue : List SEntry) (visited : List String),
      (∀ e ∈ queue, EntryOk g id1 id2 e) →
      ∀ p, searchLoop g id2 mode fuel queue visited = some (true, p) →
      Walk g id1 id2 p := by
  intro fuel
  induction fuel with
  | zero =>
    intro queue visited hE p h
    cases h
  | succ n ih =>
    intro queue visited hE p h
    rw [searchLoop] at h
    cases hpop : popFrom mode queue with
    | none =>
      rw [hpop] at h
      injection h with h
      injection h with hb hp
      cases hb
    | some pr =>
      obtain ⟨⟨v, path⟩, rest⟩ := pr
      rw [hpop] at h
      dsimp only at h
      obtain ⟨hmem, hrest, -, -⟩ := popFrom_cover hpop
      obtain ⟨hfind, hne2, hhead, hlast, hchain⟩ := hE (v, path) hmem
      obtain ⟨v1, v2, v3, v4, v5⟩ := visitNbrs_spec g id2 path (nbrIds v) visited
      rcases hvn : visitNbrs g id2 path (nbrIds v) visited with ⟨res, es, vis⟩
      rw [hvn] at h v1 v2 v3 v4 v5
      cases res with
      | some p0 =>
        injection h with h
        injection h with hb hp
        subst hp
        obtain ⟨hp0, hid2mem, -⟩ := v4 p0 rfl
        subst hp0
        have hadj : adjB g v.wiki_id id2 = true := adjB_of_mem_nbrIds hfind hid2mem
        exact ⟨head?_append_left hhead, List.getLast?_concat _,
          chainOk_append_last hchain hlast hadj⟩
      | none =>
        apply ih (rest ++ es) vis ?_ p h
        intro e he
        rcases List.mem_append.mp he with he | he
        · exact hE e (hrest e he)
        · obtain ⟨ha, hb2, hc, hd, -⟩ := v2 e he
          have hadj : adjB g v.wiki_id e.1.wiki_id = true := adjB_of_mem_nbrIds hfind hd
          refine ⟨ha, hb2, ?_, ?_, ?_⟩
          · rw [hc]
            exact head?_append_left hhead
          · rw [hc]
            exact List.getLast?_concat _
          · rw [hc]
            exact chainOk_append_last hchain hlast hadj

/-!  C10: returned paths are genuine paths. -/

/-- C10.  Returned path validity: for both `connected_breadth` and
`connected_depth`, whenever the result is `found = true` the returned id
list is a genuine walk in the store — it starts at `id1`, ends at `id2`,
and every two consecutive ids belong to royals joined by a parent/child
edge (the carried invariant `EntryOk` records that each queued entry's
path ends at that entry's own id). -/
theorem returned_path_validity (g : RoyalsGraph) (id1 id2 : String)
    (h1 : (g.find id1).isSome = true) (h2 : (g.find id2).isSome = true)
    (hne : id1 ≠ id2) :
    (∀ p, g.connected_breadth id1 id2 = some (true, p) → Walk g id1 id2 p) ∧
      (∀ p, g.connected_depth id1 id2 = some (true, p) → Walk g id1 id2 p) := by
  rcases Option.isSome_iff_exists.mp h1 with ⟨r, hr⟩
  have hrid : r.wiki_id = id1 := find_wiki_id hr
  have hEinit : ∀ e ∈ [((r, [id1]) : SEntry)], EntryOk g id1 id2 e := by
    intro e he
    rcases List.mem_singleton.mp he with rfl
    exact ⟨by rw [hrid]; exact hr, by rw [hrid]; exact hne, rfl, by simp [hrid], rfl⟩
  constructor
  · intro p hp
    unfold RoyalsGraph.connected_breadth at hp
    rw [hr] at hp
    exact searchLoop_found_walk g id1 id2 .breadth (searchFuel g) _ [] hEinit p hp
  · intro p hp
    unfold RoyalsGraph.connected_depth at hp
    rw [hr] at hp
    exact searchLoop_found_walk g id1 id2 .depth (searchFuel g) _ [] hEinit p hp

/-- Witness for C10 on the four-royal chain, both variants. -/
theorem returned_path_validity_witness :
    Walk chainStore "Q1" "Q4" ["Q1", "Q2", "Q3", "Q4"] ∧
      Walk chainStore "Q1" "Q4" ["Q1", "Q2", "Q3", "Q4"] :=
  ⟨(returned_path_validity chainStore "Q1" "Q4" (by decide) (by decide)
      (by decide)).1 ["Q1", "Q2", "Q3", "Q4"] (by decide),
    (returned_path_validity chainStore "Q1" "Q4" (by decide) (by decide)
      (by decide)).2 ["Q1", "Q2", "Q3", "Q4"] (by decide)⟩


/-!  Termination bound for the search loops. -/

theorem unseen_filter_single {S visited : List String} {i : String} (hS : S.Nodup)
    (hi : i ∈ S) (hvi : i ∉ visited) :
    (S.filter (fun x => decide (x ∉ visited ++ [i]))).length + 1
      = (S.filter (fun x => decide (x ∉ visited))).length := by
  induction S with
  | nil => cases hi
  | cons s S2 ih =>
    have hS2 : S2.Nodup := (List.nodup_cons.mp hS).2
    rw [List.filter_cons, List.filter_cons]
    by_cases hsi : s = i
    · subst hsi
      have hnotin : s ∉ S2 := (List.nodup_cons.mp hS).1
      rw [if_neg (by simp), if_pos (by simpa using hvi)]
      have hcong : S2.filter (fun x => decide (x ∉ visited ++ [s]))
          = S2.filter (fun x => decide (x ∉ visited)) := by
        apply List.filter_congr
        intro x hx
        have hxs : x ≠ s := fun h => hnotin (h ▸ hx)
        simp [hxs]
      rw [hcong]
      simp
    · have hi2 : i ∈ S2 := by
        rcases List.mem_cons.mp hi with h | h
        · exact absurd h.symm hsi
        · exact h
      by_cases hsv : s ∈ visited
      · rw [if_neg (by simp [hsv]), if_neg (by simpa using hsv)]
        exact ih hS2 hi2
      · rw [if_pos (by simp [hsv, hsi]), if_pos (by simpa using hsv)]
        have := ih hS2 hi2
        simp only [List.length_cons]
        omega

theorem find_isSome_mem_dedup {g : RoyalsGraph} {x : String}
    (h : (g.find x).isSome = true) :
    x ∈ (g.royals.map (fun r => r.wiki_id)).dedup := by
  rcases find_isSome_iff.mp h with ⟨r, hr, hid⟩
  exact List.mem_dedup.mpr (List.mem_map.mpr ⟨r, hr, hid⟩)

theorem unseenCount_append {g : RoyalsGraph} :
    ∀ {newIds visited : List String}, newIds.Nodup →
      (∀ i ∈ newIds, i ∉ visited) → (∀ i ∈ newIds, (g.find i).isSome = true) →
      unseenCount g (visited ++ newIds) + newIds.length = unseenCount g visited := by
  intro newIds
  induction newIds with
  | nil =>
    intro visited _ _ _
    simp
  | cons i rest ih =>
    intro visited hnd hfresh hin
    have hstep : unseenCount g (visited ++ [i]) + 1 = unseenCount g visited := by
      unfold unseenCount
      exact unseen_filter_single (List.nodup_dedup _)
        (find_isSome_mem_dedup (hin i (List.mem_cons_self _ _)))
        (hfresh i (List.mem_cons_self _ _))
    have hfresh2 : ∀ j ∈ rest, j ∉ visited ++ [i] := by
      intro j hj hmem
      rcases List.mem_append.mp hmem with h | h
      · exact hfresh j (List.mem_cons_of_mem _ hj) h
      · rcases List.mem_singleton.mp h with rfl
        exact (List.nodup_cons.mp hnd).1 hj
    have hrest := @ih (visited ++ [i]) (List.nodup_cons.mp hnd).2 hfresh2
      (fun j hj => hin j (List.mem_cons_of_mem _ hj))
    have hassoc : visited ++ i :: rest = (visited ++ [i]) ++ rest := by
      simp
    rw [hassoc]
    simp only [List.length_cons]
    omega

theorem searchLoop_ne_none (g : RoyalsGraph) (id2 : String) (mode : SearchMode) :
    ∀ (fuel : Nat) (queue : List SEntry) (visited : List String),
      (∀ e ∈ queue, (g.find e.1.wiki_id).isSome = true) →
      queue.length + 2 * unseenCount g visited < fuel →
      searchLoop g id2 mode fuel queue visited ≠ none := by
  intro fuel
  induction fuel with
  | zero =>
    intro queue visited hq hlt
    exact absurd hlt (Nat.not_lt_zero _)
  | succ n ih =>
    intro queue visited hq hlt
    rw [searchLoop]
    cases hpop : popFrom mode queue with
    | none => simp
    | some pr =>
      obtain ⟨⟨v, path⟩, rest⟩ := pr
      dsimp only
      obtain ⟨hmem, hrest, -, hlen⟩ := popFrom_cover hpop
      obtain ⟨v1, v2, v3, -, -⟩ := visitNbrs_spec g id2 path (nbrIds v) visited
      rcases hvn : visitNbrs g id2 path (nbrIds v) visited with ⟨res, es, vis⟩
      rw [hvn] at v1 v2 v3
      dsimp only at v1 v2 v3
      cases res with
      | some p0 => simp
      | none =>
        dsimp only
        apply ih (rest ++ es) vis
        · intro e he
          rcases List.mem_append.mp he with he | he
          · exact hq e (hrest e he)
          · rw [(v2 e he).1]
            rfl
        · have hcnt := @unseenCount_append g _ _ v3
            (fun i hi => by
              rcases List.mem_map.mp hi with ⟨e, he, rfl⟩
              exact (v2 e he).2.2.2.2)
            (fun i hi => by
              rcases List.mem_map.mp hi with ⟨e, he, rfl⟩
              rw [(v2 e he).1]
              rfl)
          rw [v1]
          have hmap : (es.map (fun e => e.1.wiki_id)).length = es.length :=
            List.length_map _ _
          rw [hmap] at hcnt
          have hl2 : (rest ++ es).length = rest.length + es.length :=
            List.length_append _ _
          omega

/-!  Agreement of the two searches on connectivity. -/

theorem chain_closed (g : RoyalsGraph) (P : String → Prop)
    (hclose : ∀ u, P u → ∀ y, adjB g u y = true → P y) :
    ∀ (p : List String) (a : String), chainOk g p = true → p.head? = some a → P a →
      ∀ b, p.getLast? = some b → P b := by
  intro p
  induction p with
  | nil =>
    intro a _ hh
    cases hh
  | cons x rest ih =>
    intro a hc hh hPa b hl
    have hax : x = a := by
      injection hh
    subst hax
    cases rest with
    | nil =>
      have : some x = some b := hl
      injection this with h
      exact h ▸ hPa
    | cons y rest2 =>
      have hc2 : adjB g x y = true ∧ chainOk g (y :: rest2) = true := by
        have : (adjB g x y && chainOk g (y :: rest2)) = true := hc
        exact Bool.and_eq_true_iff.mp this
      have hPy := hclose x hPa y hc2.1
      have hl2 : (y :: rest2).getLast? = some b := by
        rw [← List.getLast?_cons_cons]
        exact hl
      exact ih y hc2.2 rfl hPy b hl2

theorem searchInv_init (g : RoyalsGraph) (id1 id2 : String) {r : Royal}
    (hr : g.find id1 = some r) : SearchInv g id1 id2 [(r, [id1])] [] := by
  have hrid : r.wiki_id = id1 := find_wiki_id hr
  refine ⟨[], ?_, ?_, ?_, ?_, ?_, ?_⟩
  · intro u hu
    cases hu
  · intro u hu
    cases hu
  · exact Or.inr ⟨(r, [id1]), List.mem_singleton.mpr rfl, hrid⟩
  · intro e he
    rcases List.mem_singleton.mp he with rfl
    exact Or.inr hrid
  · intro h
    cases h
  · intro e he
    rcases List.mem_singleton.mp he with rfl
    show g.find r.wiki_id = some r
    rw [hrid]
    exact hr

theorem searchLoop_false_noreach (g : RoyalsGraph) (id1 id2 : String)
    (mode : SearchMode) (hC : Closed g) (hne : id1 ≠ id2) :
    ∀ (fuel : Nat) (queue : List SEntry) (visited : List String),
      SearchInv g id1 id2 queue visited →
      ∀ p, searchLoop g id2 mode fuel queue visited = some (false, p) →
      ¬ Reach g id1 id2 := by
  intro fuel
  induction fuel with
  | zero =>
    intro queue visited hInv p h
    cases h
  | succ n ih =>
    intro queue visited hInv p h
    rw [searchLoop] at h
    cases hpop : popFrom mode queue with
    | none =>
      have hqe : queue = [] := popFrom_none hpop
      subst hqe
      obtain ⟨Ex, r1, r2, r3, r4, r5, r6⟩ := hInv
      intro hreach
      obtain ⟨W, hWh, hWl, hWc⟩ := hreach
      have hclose : ∀ u, (u ∈ visited ∨ u = id1) → ∀ y, adjB g u y = true →
          (y ∈ visited ∨ y = id1) := by
        intro u hu y hy
        have huEx : u ∈ Ex := by
          rcases hu with hu | rfl
          · rcases r2 u hu with hx | ⟨e, he, -⟩
            · exact hx
            · cases he
          · rcases r3 with hx | ⟨e, he, -⟩
            · exact hx
            · cases he
        exact (r1 u huEx y hy).1
      have hPid2 := chain_closed g (fun u => u ∈ visited ∨ u = id1) hclose W id1
        hWc hWh (Or.inr rfl) id2 hWl
      rcases hPid2 with hx | hx
      · exact r5 hx
      · exact hne hx.symm
    | some pr =>
      obtain ⟨⟨v, path⟩, rest⟩ := pr
      rw [hpop] at h
      dsimp only at h
      obtain ⟨hmem, hrestsub, hcover, -⟩ := popFrom_cover hpop
      obtain ⟨Ex, r1, r2, r3, r4, r5, r6⟩ := hInv
      obtain ⟨v1, v2, v3, v4, v5⟩ := visitNbrs_spec g id2 path (nbrIds v) visited
      rcases hvn : visitNbrs g id2 path (nbrIds v) visited with ⟨res, es, vis⟩
      rw [hvn] at h v1 v2 v3 v4 v5
      dsimp only at v1 v2 v3 v4 v5
      cases res with
      | some p0 =>
        injection h with h
        injection h with hb hp
        cases hb
      | none =>
        apply ih (rest ++ es) vis ?_ p h
        have hfindv : g.find v.wiki_id = some v := r6 (v, path) hmem
        have hvroyals : v ∈ g.royals := find_mem hfindv
        refine ⟨v.wiki_id :: Ex, ?_, ?_, ?_, ?_, ?_, ?_⟩
        · intro u hu y hy
          rcases List.mem_cons.mp hu with rfl | hu
          · have hyl : y ∈ v.parents ++ v.children := by
              unfold adjB at hy
              rw [hfindv] at hy
              simp only [Bool.or_eq_true, decide_eq_true_eq] at hy
              exact List.mem_append.mpr hy
            have hynb : y ∈ nbrIds v := List.mem_dedup.mpr hyl
            have hysome : (g.find y).isSome = true := hC v hvroyals y hyl
            obtain ⟨hyvis, hyne⟩ := v5 rfl y hynb hysome
            exact ⟨Or.inl hyvis, hyne⟩
          · obtain ⟨hpush, hne2⟩ := r1 u hu y hy
            refine ⟨?_, hne2⟩
            rcases hpush with hx | hx
            · exact Or.inl (by rw [v1]; exact List.mem_append_left _ hx)
            · exact Or.inr hx
        · intro u hu
          rw [v1] at hu
          rcases List.mem_append.mp hu with hu | hu
          · rcases r2 u hu with hx | ⟨e, he, hid⟩
            · exact Or.inl (List.mem_cons_of_mem _ hx)
            · rcases hcover e he with rfl | he2
              · exact Or.inl (by rw [← hid]; exact List.mem_cons_self _ _)
              · exact Or.inr ⟨e, List.mem_append_left _ he2, hid⟩
          · rcases List.mem_map.mp hu with ⟨e, he, hid⟩
            exact Or.inr ⟨e, List.mem_append_right _ he, hid⟩
        · rcases r3 with hx | ⟨e, he, hid⟩
          · exact Or.inl (List.mem_cons_of_mem _ hx)
          · rcases hcover e he with rfl | he2
            · exact Or.inl (by rw [← hid]; exact List.mem_cons_self _ _)
            · exact Or.inr ⟨e, List.mem_append_left _ he2, hid⟩
        · intro e he
          rcases List.mem_append.mp he with he | he
          · rcases r4 e (hrestsub e he) with hx | hx
            · exact Or.inl (by rw [v1]; exact List.mem_append_left _ hx)
            · exact Or.inr hx
          · exact Or.inl (by
              rw [v1]
              exact List.mem_append_right _ (List.mem_map_of_mem _ he))
        · intro hid2
          rw [v1] at hid2
          rcases List.mem_append.mp hid2 with hx | hx
          · exact r5 hx
          · rcases List.mem_map.mp hx with ⟨e, he, hid⟩
            exact (v2 e he).2.1 hid
        · intro e he
          rcases List.mem_append.mp he with he | he
          · exact r6 e (hrestsub e he)
          · exact (v2 e he).1

/-!  C3: the two searches agree on connectivity. -/

/-- C3.  BFS/DFS agreement: on every (reference-closed) store, for ids
`id1 ≠ id2` both present, both searches complete and their `found`
components are equal. -/
theorem bfs_dfs_agreement (g : RoyalsGraph) (id1 id2 : String) (hC : Closed g)
    (h1 : (g.find id1).isSome = true) (h2 : (g.find id2).isSome = true)
    (hne : id1 ≠ id2) :
    ∃ b pb pd, g.connected_breadth id1 id2 = some (b, pb) ∧
      g.connected_depth id1 id2 = some (b, pd) := by
  rcases Option.isSome_iff_exists.mp h1 with ⟨r, hr⟩
  have hrid : r.wiki_id = id1 := find_wiki_id hr
  have hqfind : ∀ e ∈ [((r, [id1]) : SEntry)], (g.find e.1.wiki_id).isSome = true := by
    intro e he
    rcases List.mem_singleton.mp he with rfl
    show (g.find r.wiki_id).isSome = true
    rw [hrid, hr]
    rfl
  have hfuel : ([((r, [id1]) : SEntry)]).length + 2 * unseenCount g [] < searchFuel g := by
    have hded : (g.royals.map (fun r => r.wiki_id)).dedup.length ≤ g.royals.length := by
      have hsub := (List.dedup_sublist (g.royals.map (fun r => r.wiki_id))).length_le
      rw [List.length_map] at hsub
      exact hsub
    have hunseen : unseenCount g [] ≤ g.royals.length := by
      unfold unseenCount
      exact le_trans (List.length_filter_le _ _) hded
    unfold searchFuel
    simp only [List.length_singleton]
    omega
  have hbne := searchLoop_ne_none g id2 .breadth (searchFuel g) [(r, [id1])] [] hqfind hfuel
  have hdne := searchLoop_ne_none g id2 .depth (searchFuel g) [(r, [id1])] [] hqfind hfuel
  obtain ⟨rb, hrb⟩ := Option.ne_none_iff_exists'.mp hbne
  obtain ⟨rd, hrd⟩ := Option.ne_none_iff_exists'.mp hdne
  obtain ⟨bb, pb⟩ := rb
  obtain ⟨bd, pd⟩ := rd
  have hcb : g.connected_breadth id1 id2 = some (bb, pb) := by
    unfold RoyalsGraph.connected_breadth
    rw [hr]
    exact hrb
  have hcd : g.connected_depth id1 id2 = some (bd, pd) := by
    unfold RoyalsGraph.connected_depth
    rw [hr]
    exact hrd
  have hInit := searchInv_init g id1 id2 hr
  have hEinit : ∀ e ∈ [((r, [id1]) : SEntry)], EntryOk g id1 id2 e := by
    intro e he
    rcases List.mem_singleton.mp he with rfl
    exact ⟨by rw [hrid]; exact hr, by rw [hrid]; exact hne, rfl, by simp [hrid], rfl⟩
  cases bb with
  | false =>
    cases bd with
    | false => exact ⟨false, pb, pd, hcb, hcd⟩
    | true =>
      exfalso
      have hnr := searchLoop_false_noreach g id1 id2 .breadth hC hne (searchFuel g)
        [(r, [id1])] [] hInit pb hrb
      have hwd := searchLoop_found_walk g id1 id2 .depth (searchFuel g)
        [(r, [id1])] [] hEinit pd hrd
      exact hnr ⟨pd, hwd⟩
  | true =>
    cases bd with
    | false =>
      exfalso
      have hnr := searchLoop_false_noreach g id1 id2 .depth hC hne (searchFuel g)
        [(r, [id1])] [] hInit pd hrd
      have hwb := searchLoop_found_walk g id1 id2 .breadth (searchFuel g)
        [(r, [id1])] [] hEinit pb hrb
      exact hnr ⟨pb, hwb⟩
    | true => exact ⟨true, pb, pd, hcb, hcd⟩

/-- Witness for C3 on the four-royal chain. -/
theorem bfs_dfs_agreement_witness :
    ∃ b pb pd, chainStore.connected_breadth "Q1" "Q3" = some (b, pb) ∧
      chainStore.connected_depth "Q1" "Q3" = some (b, pd) :=
  bfs_dfs_agreement chainStore "Q1" "Q3" (by decide) (by decide) (by decide)
    (by decide)



/-!  Undirected and directed adjacency coincide on well-formed stores. -/

theorem adjUB_to_adjB {g : RoyalsGraph} (hC : Closed g) (hS : Symm g) {a b : String}
    (h : adjUB g a b = true) : adjB g a b = true := by
  unfold adjUB at h
  rcases Bool.or_eq_true_iff.mp h with h | h
  · exact h
  · unfold adjB at h ⊢
    cases hfb : g.find b with
    | none =>
      rw [hfb] at h
      cases h
    | some rb =>
      rw [hfb] at h
      simp only [Bool.or_eq_true, decide_eq_true_eq] at h
      have hrb_mem : rb ∈ g.royals := find_mem hfb
      have hrbid : rb.wiki_id = b := find_wiki_id hfb
      have hasome : (g.find a).isSome = true := by
        rcases h with h | h
        · exact hC rb hrb_mem a (List.mem_append_left _ h)
        · exact hC rb hrb_mem a (List.mem_append_right _ h)
      rcases Option.isSome_iff_exists.mp hasome with ⟨ra, hfa⟩
      have hra_mem : ra ∈ g.royals := find_mem hfa
      have hraid : ra.wiki_id = a := find_wiki_id hfa
      rw [hfa]
      simp only [Bool.or_eq_true, decide_eq_true_eq]
      rcases h with h | h
      · right
        have hmem := (hS ra hra_mem rb hrb_mem).mp (by rw [hraid]; exact h)
        rw [← hrbid]
        exact hmem
      · left
        have hmem := (hS rb hrb_mem ra hra_mem).mpr (by rw [hraid]; exact h)
        rw [← hrbid]
        exact hmem

theorem chainOkU_to_chainOk {g : RoyalsGraph} (hC : Closed g) (hS : Symm g) :
    ∀ p, chainOkU g p = true → chainOk g p = true := by
  intro p
  induction p with
  | nil => intro h; exact h
  | cons a rest ih =>
    cases rest with
    | nil => intro h; exact h
    | cons b rest2 =>
      intro h
      have h2 : adjUB g a b = true ∧ chainOkU g (b :: rest2) = true := by
        have hx : (adjUB g a b && chainOkU g (b :: rest2)) = true := h
        exact Bool.and_eq_true_iff.mp hx
      show (adjB g a b && chainOk g (b :: rest2)) = true
      rw [adjUB_to_adjB hC hS h2.1, ih h2.2]
      rfl

theorem chainOk_to_chainOkU {g : RoyalsGraph} :
    ∀ p, chainOk g p = true → chainOkU g p = true := by
  intro p
  induction p with
  | nil => intro h; exact h
  | cons a rest ih =>
    cases rest with
    | nil => intro h; exact h
    | cons b rest2 =>
      intro h
      have h2 : adjB g a b = true ∧ chainOk g (b :: rest2) = true := by
        have hx : (adjB g a b && chainOk g (b :: rest2)) = true := h
        exact Bool.and_eq_true_iff.mp hx
      show (adjUB g a b && chainOkU g (b :: rest2)) = true
      have hU : adjUB g a b = true := by
        unfold adjUB
        rw [h2.1]
        rfl
      rw [hU, ih h2.2]
      rfl

theorem sorted_of_all_eq {c : Nat} : ∀ {L : List Nat}, (∀ x ∈ L, x = c) →
    List.Sorted (· ≤ ·) L := by
  intro L
  induction L with
  | nil => intro _; exact List.sorted_nil
  | cons x rest ih =>
    intro hall
    refine List.pairwise_cons.mpr ⟨?_, ih (fun y hy => hall y (List.mem_cons_of_mem _ hy))⟩
    intro y hy
    rw [hall x (List.mem_cons_self _ _), hall y (List.mem_cons_of_mem _ hy)]

/-!  The breadth-first minimality invariant: initial state and the climb
along a competitor walk. -/

theorem bfsInv_init (g : RoyalsGraph) (id1 id2 : String) {r : Royal}
    (hr : g.find id1 = some r) (hne : id1 ≠ id2) :
    BfsInv g id1 id2 [(r, [id1])] [] := by
  have hrid : r.wiki_id = id1 := find_wiki_id hr
  refine ⟨[], fun _ => 1, ?_⟩
  constructor
  · intro e he
    rcases List.mem_singleton.mp he with rfl
    exact ⟨by rw [hrid]; exact hr, by rw [hrid]; exact hne⟩
  · exact List.sorted_singleton _
  · intro f hf e he
    rcases List.mem_singleton.mp he with rfl
    have hfe : f = (r, [id1]) := by
      have hx : some (r, [id1]) = some f := Option.mem_def.mp hf
      injection hx with hx2
      exact hx2.symm
    rw [hfe]
    simp
  · intro e he
    rcases List.mem_singleton.mp he with rfl
    exact Or.inl rfl
  · intro f hf u hu
    have hfe : f = (r, [id1]) := by
      have hx : some (r, [id1]) = some f := Option.mem_def.mp hf
      injection hx with hx2
      exact hx2.symm
    rw [hfe]
    simp
  · intro u hu
    cases hu
  · intro u hu
    cases hu
  · exact Or.inr ⟨(r, [id1]), List.mem_singleton.mpr rfl, hrid⟩
  · rfl
  · intro h
    cases h
  · intro u hu
    cases hu
  · intro e he
    rcases List.mem_singleton.mp he with rfl
    exact Or.inr hrid
  · intro h
    exact ⟨(r, [id1]), List.mem_singleton.mpr rfl, hrid, rfl⟩
  · intro e he
    rcases List.mem_singleton.mp he with rfl
    exact Nat.le_refl _

theorem bfs_climb (g : RoyalsGraph) (id1 id2 : String) {v : Royal} {pv : List String}
    {rest : List SEntry} {visited Ex : List String} {rho : String → Nat}
    (st : BfsState g id1 id2 ((v, pv) :: rest) visited Ex rho)
    (hne : id1 ≠ id2) (hid1Ex : id1 ∈ Ex) :
    ∀ (W : List String) (x : String) (c : Nat), chainOk g W = true →
      W.head? = some x → W.getLast? = some id2 → x ∈ Ex → rho x ≤ c →
      pv.length ≤ c + (W.length - 1) - 1 := by
  intro W
  induction W with
  | nil =>
    intro x c _ hh
    cases hh
  | cons a W2 ih =>
    intro x c hc hh hl hxEx hrho
    have hax : a = x := by injection hh
    cases W2 with
    | nil =>
      exfalso
      have haid2 : a = id2 := by
        have hx : some a = some id2 := hl
        injection hx
      rcases st.ex_pushed a (hax ▸ hxEx) with hv | h1
      · exact st.id2_not_vis (haid2 ▸ hv)
      · exact hne (h1 ▸ haid2)
    | cons b W3 =>
      have hc2 : adjB g a b = true ∧ chainOk g (b :: W3) = true := by
        have hx : (adjB g a b && chainOk g (b :: W3)) = true := hc
        exact Bool.and_eq_true_iff.mp hx
      have haEx : a ∈ Ex := by rw [hax]; exact hxEx
      obtain ⟨hbpush, hbne, hrhob⟩ := st.expand a haEx b hc2.1
      have hrho_a : rho a ≤ c := by rw [hax]; exact hrho
      have hrhob2 : rho b ≤ c + 1 := by omega
      have hl2 : (b :: W3).getLast? = some id2 := by
        rw [← List.getLast?_cons_cons]
        exact hl
      by_cases hbEx : b ∈ Ex
      · have hrec := ih b (c + 1) hc2.2 rfl hl2 hbEx hrhob2
        simp only [List.length_cons] at hrec ⊢
        omega
      · have hW3ne : W3 ≠ [] := by
          intro hW3
          subst hW3
          have hx : some b = some id2 := hl2
          injection hx with hb2
          exact hbne hb2
        have hbne1 : b ≠ id1 := fun h => hbEx (h ▸ hid1Ex)
        have hbq : ∃ e ∈ (v, pv) :: rest, e.1.wiki_id = b := by
          rcases hbpush with hbv | hbid1
          · rcases st.vis_split b hbv with hbEx2 | hq
            · exact absurd hbEx2 hbEx
            · exact hq
          · exact absurd hbid1 hbne1
        obtain ⟨e, he, heid⟩ := hbq
        have hrho_eq : rho b = e.2.length := by
          rcases st.entry_rho e he with hx | hx
          · rw [← heid]
            exact hx
          · rw [heid] at hx
            exact absurd hx hbne1
        have hmin : pv.length ≤ e.2.length := by
          rcases List.mem_cons.mp he with heq | he2
          · rw [heq]
          · exact (List.pairwise_cons.mp st.sorted).1 e.2.length
              (List.mem_map_of_mem (fun e => e.2.length) he2)
        have hW3pos : 1 ≤ W3.length := by
          cases W3 with
          | nil => exact absurd rfl hW3ne
          | cons _ _ => simp
        simp only [List.length_cons]
        omega

theorem rhoStep_id1 (id1 : String) (newIds : List String) (plen : Nat)
    (rho : String → Nat) : rhoStep id1 newIds plen rho id1 = 1 := if_pos rfl

theorem rhoStep_new {id1 u : String} {newIds : List String} (plen : Nat)
    (rho : String → Nat) (h1 : u ≠ id1) (h2 : u ∈ newIds) :
    rhoStep id1 newIds plen rho u = plen + 1 := by
  unfold rhoStep
  rw [if_neg h1, if_pos h2]

theorem rhoStep_old {id1 u : String} {newIds : List String} (plen : Nat)
    (rho : String → Nat) (h1 : u ≠ id1) (h2 : u ∉ newIds) :
    rhoStep id1 newIds plen rho u = rho u := by
  unfold rhoStep
  rw [if_neg h1, if_neg h2]

theorem bfs_maintain (g : RoyalsGraph) (id1 id2 : String) (hC : Closed g)
    {v : Royal} {pv : List String} {rest es : List SEntry}
    {visited vis Ex : List String} {rho : String → Nat}
    (st : BfsState g id1 id2 ((v, pv) :: rest) visited Ex rho)
    (hvn : visitNbrs g id2 pv (nbrIds v) visited = (none, es, vis)) :
    BfsInv g id1 id2 (rest ++ es) vis := by
  obtain ⟨vv1, vv2, vv3, vv4, vv5⟩ := visitNbrs_spec g id2 pv (nbrIds v) visited
  rw [hvn] at vv1 vv2 vv3 vv4 vv5
  dsimp only at vv1 vv2 vv3 vv4 vv5
  have hfindv : g.find v.wiki_id = some v := (st.entries (v, pv) (List.mem_cons_self _ _)).1
  have hvroyals : v ∈ g.royals := find_mem hfindv
  have hpush_v : v.wiki_id ∈ visited ∨ v.wiki_id = id1 :=
    st.queue_pushed (v, pv) (List.mem_cons_self _ _)
  have hheadmem : (v, pv) ∈ (((v, pv) :: rest).head?) := Option.mem_def.mpr rfl
  have hhead_min : ∀ e ∈ rest, pv.length ≤ e.2.length := fun e he =>
    (List.pairwise_cons.mp st.sorted).1 e.2.length (List.mem_map_of_mem (fun e => e.2.length) he)
  have hbound_all : ∀ e ∈ (v, pv) :: rest, e.2.length ≤ pv.length + 1 := fun e he =>
    st.bounded (v, pv) hheadmem e he
  have hrho_bound_all : ∀ u, (u ∈ visited ∨ u = id1) → rho u ≤ pv.length + 1 :=
    fun u hu => st.rho_bound (v, pv) hheadmem u hu
  have hfresh : ∀ e ∈ es, e.1.wiki_id ∉ visited := fun e he => (vv2 e he).2.2.2.2
  have hlen_new : ∀ e ∈ es, e.2.length = pv.length + 1 := fun e he => by
    rw [(vv2 e he).2.2.1]
    simp
  have hpv_le1_of : v.wiki_id = id1 → id1 ∉ Ex → pv.length ≤ 1 := by
    intro hvid hnEx
    obtain ⟨e1, he1, heid, helen⟩ := st.id1_entry hnEx
    rcases List.mem_cons.mp he1 with heq | he2
    · rw [heq] at helen
      exact le_of_eq helen
    · have hx := hhead_min e1 he2
      rw [helen] at hx
      exact hx
  have hvisited_sub : ∀ u ∈ visited, u ∈ vis := fun u hu => by
    rw [vv1]
    exact List.mem_append_left _ hu
  have hnew_sub : ∀ e ∈ es, e.1.wiki_id ∈ vis := fun e he => by
    rw [vv1]
    exact List.mem_append_right _ (List.mem_map_of_mem (fun e => e.1.wiki_id) he)
  have hvis_cases : ∀ u ∈ vis, u ∈ visited ∨ u ∈ es.map (fun e => e.1.wiki_id) :=
    fun u hu => by
      rw [vv1] at hu
      exact List.mem_append.mp hu
  have hrest_sorted : List.Sorted (· ≤ ·) (rest.map (fun e => e.2.length)) :=
    (List.pairwise_cons.mp st.sorted).2
  have hvisited_not_new : ∀ u ∈ visited, u ∉ es.map (fun e => e.1.wiki_id) := by
    intro u hu hmem
    rcases List.mem_map.mp hmem with ⟨e, he, rfl⟩
    exact hfresh e he hu
  have hnbr_facts : ∀ y, adjB g v.wiki_id y = true → y ∈ vis ∧ y ≠ id2 := by
    intro y hy
    have hyl : y ∈ v.parents ++ v.children := by
      unfold adjB at hy
      rw [hfindv] at hy
      simp only [Bool.or_eq_true, decide_eq_true_eq] at hy
      exact List.mem_append.mpr hy
    exact vv5 rfl y (List.mem_dedup.mpr hyl) (hC v hvroyals y hyl)
  have hfhead : ∀ f, (rest ++ es).head? = some f → pv.length ≤ f.2.length := by
    intro f hf2
    cases rest with
    | nil =>
      cases es with
      | nil => cases hf2
      | cons e0 es2 =>
        have hsf : some e0 = some f := hf2
        injection hsf with hfr
        rw [← hfr, hlen_new e0 (List.mem_cons_self _ _)]
        omega
    | cons r0 rest2 =>
      have hsf : some r0 = some f := hf2
      injection hsf with hfr
      rw [← hfr]
      exact hhead_min r0 (List.mem_cons_self _ _)
  refine ⟨v.wiki_id :: Ex, rhoStep id1 (es.map (fun e => e.1.wiki_id)) pv.length rho, ?_⟩
  constructor
  · intro e he
    rcases List.mem_append.mp he with he | he
    · exact st.entries e (List.mem_cons_of_mem _ he)
    · exact ⟨(vv2 e he).1, (vv2 e he).2.1⟩
  · rw [List.map_append]
    refine List.pairwise_append.mpr ⟨hrest_sorted, ?_, ?_⟩
    · apply sorted_of_all_eq
      intro x hx
      rcases List.mem_map.mp hx with ⟨e, he, rfl⟩
      exact hlen_new e he
    · intro x hx y hy
      rcases List.mem_map.mp hx with ⟨e, he, rfl⟩
      rcases List.mem_map.mp hy with ⟨e2, he2, rfl⟩
      rw [hlen_new e2 he2]
      exact hbound_all e (List.mem_cons_of_mem _ he)
  · intro f hf e he
    have hflen := hfhead f (Option.mem_def.mp hf)
    rcases List.mem_append.mp he with he | he
    · have := hbound_all e (List.mem_cons_of_mem _ he)
      omega
    · rw [hlen_new e he]
      omega
  · intro e he
    rcases List.mem_append.mp he with he | he
    · by_cases hid : e.1.wiki_id = id1
      · exact Or.inr hid
      · left
        have hev : e.1.wiki_id ∈ visited := by
          rcases st.queue_pushed e (List.mem_cons_of_mem _ he) with h | h
          · exact h
          · exact absurd h hid
        rw [rhoStep_old _ _ hid (hvisited_not_new _ hev)]
        rcases st.entry_rho e (List.mem_cons_of_mem _ he) with h | h
        · exact h
        · exact absurd h hid
    · by_cases hid : e.1.wiki_id = id1
      · exact Or.inr hid
      · left
        rw [rhoStep_new _ _ hid (List.mem_map_of_mem (fun e => e.1.wiki_id) he), hlen_new e he]
  · intro f hf u hu
    have hflen := hfhead f (Option.mem_def.mp hf)
    rcases hu with hu | rfl
    · rcases hvis_cases u hu with huv | hun
      · by_cases hid : u = id1
        · rw [hid, rhoStep_id1]
          omega
        · rw [rhoStep_old _ _ hid (hvisited_not_new _ huv)]
          have := hrho_bound_all u (Or.inl huv)
          omega
      · by_cases hid : u = id1
        · rw [hid, rhoStep_id1]
          omega
        · rw [rhoStep_new _ _ hid hun]
          omega
    · rw [rhoStep_id1]
      omega
  · intro u hu y hy
    rcases List.mem_cons.mp hu with rfl | hu
    · obtain ⟨hyvis, hyne⟩ := hnbr_facts y hy
      refine ⟨Or.inl hyvis, hyne, ?_⟩
      by_cases hvid : v.wiki_id = id1
      · rw [hvid, rhoStep_id1]
        rcases hvis_cases y hyvis with hyv | hyn
        · by_cases hyid : y = id1
          · rw [hyid, rhoStep_id1]
            omega
          · rw [rhoStep_old _ _ hyid (hvisited_not_new _ hyv)]
            by_cases hid1Ex : id1 ∈ Ex
            · have hyold := (st.expand id1 hid1Ex y (by rw [← hvid]; exact hy)).2.2
              rw [st.rho_id1] at hyold
              omega
            · have hpv1 := hpv_le1_of hvid hid1Ex
              have := hrho_bound_all y (Or.inl hyv)
              omega
        · by_cases hyid : y = id1
          · rw [hyid, rhoStep_id1]
            omega
          · rw [rhoStep_new _ _ hyid hyn]
            by_cases hid1Ex : id1 ∈ Ex
            · exfalso
              have hpu := (st.expand id1 hid1Ex y (by rw [← hvid]; exact hy)).1
              rcases hpu with h | h
              · rcases List.mem_map.mp hyn with ⟨e, he, rfl⟩
                exact hfresh e he h
              · exact hyid h
            · have := hpv_le1_of hvid hid1Ex
              omega
      · have hvv : v.wiki_id ∈ visited := by
          rcases hpush_v with h | h
          · exact h
          · exact absurd h hvid
        have hrv : rho v.wiki_id = pv.length := by
          rcases st.entry_rho (v, pv) (List.mem_cons_self _ _) with h | h
          · exact h
          · exact absurd h hvid
        rw [rhoStep_old _ _ hvid (hvisited_not_new _ hvv), hrv]
        rcases hvis_cases y hyvis with hyv | hyn
        · by_cases hyid : y = id1
          · rw [hyid, rhoStep_id1]
            omega
          · rw [rhoStep_old _ _ hyid (hvisited_not_new _ hyv)]
            have := hrho_bound_all y (Or.inl hyv)
            omega
        · by_cases hyid : y = id1
          · rw [hyid, rhoStep_id1]
            omega
          · rw [rhoStep_new _ _ hyid hyn]
    · obtain ⟨hpush, hne2, hrho⟩ := st.expand u hu y hy
      have hru : rhoStep id1 (es.map (fun e => e.1.wiki_id)) pv.length rho u = rho u := by
        by_cases hid : u = id1
        · rw [hid, rhoStep_id1]
          exact (st.rho_id1).symm
        · rcases st.ex_pushed u hu with h | h
          · exact rhoStep_old _ _ hid (hvisited_not_new _ h)
          · exact absurd h hid
      refine ⟨?_, hne2, ?_⟩
      · rcases hpush with h | h
        · exact Or.inl (hvisited_sub _ h)
        · exact Or.inr h
      · rw [hru]
        by_cases hyid : y = id1
        · rw [hyid, rhoStep_id1]
          omega
        · rcases hpush with h | h
          · rw [rhoStep_old _ _ hyid (hvisited_not_new _ h)]
            omega
          · exact absurd h hyid
  · intro u hu
    rcases hvis_cases u hu with huv | hun
    · rcases st.vis_split u huv with h | ⟨e, he, hid⟩
      · exact Or.inl (List.mem_cons_of_mem _ h)
      · rcases List.mem_cons.mp he with heq | he2
        · left
          rw [← hid, heq]
          exact List.mem_cons_self _ _
        · exact Or.inr ⟨e, List.mem_append_left _ he2, hid⟩
    · rcases List.mem_map.mp hun with ⟨e, he, rfl⟩
      exact Or.inr ⟨e, List.mem_append_right _ he, rfl⟩
  · rcases st.id1_split with h | ⟨e, he, hid⟩
    · exact Or.inl (List.mem_cons_of_mem _ h)
    · rcases List.mem_cons.mp he with heq | he2
      · left
        rw [← hid, heq]
        exact List.mem_cons_self _ _
      · exact Or.inr ⟨e, List.mem_append_left _ he2, hid⟩
  · exact rhoStep_id1 _ _ _ _
  · intro h
    rcases hvis_cases id2 h with h | h
    · exact st.id2_not_vis h
    · rcases List.mem_map.mp h with ⟨e, he, hid⟩
      exact (vv2 e he).2.1 hid
  · intro u hu
    rcases List.mem_cons.mp hu with rfl | hu
    · rcases hpush_v with h | h
      · exact Or.inl (hvisited_sub _ h)
      · exact Or.inr h
    · rcases st.ex_pushed u hu with h | h
      · exact Or.inl (hvisited_sub _ h)
      · exact Or.inr h
  · intro e he
    rcases List.mem_append.mp he with he | he
    · rcases st.queue_pushed e (List.mem_cons_of_mem _ he) with h | h
      · exact Or.inl (hvisited_sub _ h)
      · exact Or.inr h
    · exact Or.inl (hnew_sub e he)
  · intro hnot
    have hnot2 : id1 ∉ Ex := fun h => hnot (List.mem_cons_of_mem _ h)
    have hnotv : id1 ≠ v.wiki_id := fun h => hnot (by rw [h]; exact List.mem_cons_self _ _)
    obtain ⟨e1, he1, heid, helen⟩ := st.id1_entry hnot2
    rcases List.mem_cons.mp he1 with heq | he2
    · exfalso
      rw [heq] at heid
      exact hnotv heid.symm
    · exact ⟨e1, List.mem_append_left _ he2, heid, helen⟩
  · intro e he
    rcases List.mem_append.mp he with he | he
    · exact st.lens_pos e (List.mem_cons_of_mem _ he)
    · rw [hlen_new e he]
      omega


theorem bfs_min_aux (g : RoyalsGraph) (id1 id2 : String) (hC : Closed g)
    (hne : id1 ≠ id2) :
    ∀ (fuel : Nat) (queue : List SEntry) (visited : List String),
      BfsInv g id1 id2 queue visited →
      ∀ p, searchLoop g id2 .breadth fuel queue visited = some (true, p) →
        ∀ W, Walk g id1 id2 W → p.length ≤ W.length := by
  intro fuel
  induction fuel with
  | zero =>
    intro queue visited _ p h
    cases h
  | succ n ih =>
    intro queue visited hinv p h W hW
    rw [searchLoop] at h
    cases queue with
    | nil =>
      rw [show popFrom SearchMode.breadth ([] : List SEntry) = none from rfl] at h
      injection h with h
      injection h with hb hp2
      cases hb
    | cons hd rest =>
      obtain ⟨v, pv⟩ := hd
      rw [popFrom_breadth (v, pv) rest] at h
      dsimp only at h
      obtain ⟨v1, v2, v3, v4, v5⟩ := visitNbrs_spec g id2 pv (nbrIds v) visited
      rcases hvn : visitNbrs g id2 pv (nbrIds v) visited with ⟨res, es, vis⟩
      rw [hvn] at h v1 v2 v3 v4 v5
      obtain ⟨Ex, rho, st⟩ := hinv
      cases res with
      | none =>
        exact ih (rest ++ es) vis (bfs_maintain g id1 id2 hC st hvn) p h W hW
      | some p0 =>
        injection h with h
        injection h with hb hp2
        subst hp2
        obtain ⟨hp0, -, -⟩ := v4 p0 rfl
        obtain ⟨hWh, hWl, hWc⟩ := hW
        have hW2 : 2 ≤ W.length := by
          cases W with
          | nil => cases hWh
          | cons a W2 =>
            cases W2 with
            | nil =>
              exfalso
              have ha1 : a = id1 := by injection hWh
              have ha2 : a = id2 := by
                have hx : some a = some id2 := hWl
                injection hx
              exact hne (ha1 ▸ ha2)
            | cons b W3 => simp
        have hplen : p0.length = pv.length + 1 := by
          rw [hp0]
          simp
        by_cases hid1Ex : id1 ∈ Ex
        · have hclimb := bfs_climb g id1 id2 st hne hid1Ex W id1 1 hWc hWh hWl hid1Ex
            (le_of_eq st.rho_id1)
          omega
        · obtain ⟨e1, he1, -, helen⟩ := st.id1_entry hid1Ex
          have hpv1 : pv.length ≤ 1 := by
            rcases List.mem_cons.mp he1 with heq | he2
            · rw [heq] at helen
              exact le_of_eq helen
            · have hx : pv.length ≤ e1.2.length :=
                (List.pairwise_cons.mp st.sorted).1 e1.2.length
                  (List.mem_map_of_mem (fun e => e.2.length) he2)
              omega
          omega

/-!  C4: the breadth-first path is shortest. -/

/-- C4.  BFS shortest path: on a reference-closed, symmetric store with
`id1 ≠ id2`, whenever `connected_breadth` reports `found = true` its
returned path has minimum edge count among all undirected parent/child
walks from `id1` to `id2`; in particular whenever `connected_depth` also
finds a path, the breadth-first path's edge count is at most the
depth-first path's. -/
theorem bfs_shortest_path (g : RoyalsGraph) (id1 id2 : String) (hC : Closed g)
    (hS : Symm g) (hne : id1 ≠ id2) :
    ∀ p, g.connected_breadth id1 id2 = some (true, p) →
      (∀ W, WalkU g id1 id2 W → p.length ≤ W.length) ∧
      (∀ q, g.connected_depth id1 id2 = some (true, q) → p.length ≤ q.length) := by
  intro p hp
  unfold RoyalsGraph.connected_breadth at hp
  cases hr : g.find id1 with
  | none =>
    rw [hr] at hp
    cases hp
  | some r =>
    rw [hr] at hp
    have hrid : r.wiki_id = id1 := find_wiki_id hr
    have hmin : ∀ W, Walk g id1 id2 W → p.length ≤ W.length := fun W hW =>
      bfs_min_aux g id1 id2 hC hne (searchFuel g) [(r, [id1])] []
        (bfsInv_init g id1 id2 hr hne) p hp W hW
    refine ⟨?_, ?_⟩
    · intro W hW
      exact hmin W ⟨hW.1, hW.2.1, chainOkU_to_chainOk hC hS W hW.2.2⟩
    · intro q hq
      unfold RoyalsGraph.connected_depth at hq
      rw [hr] at hq
      have hEinit : ∀ e ∈ [((r, [id1]) : SEntry)], EntryOk g id1 id2 e := by
        intro e he
        rcases List.mem_singleton.mp he with rfl
        exact ⟨by rw [hrid]; exact hr, by rw [hrid]; exact hne, rfl, by simp [hrid], rfl⟩
      exact hmin q (searchLoop_found_walk g id1 id2 .depth (searchFuel g) _ [] hEinit q hq)

theorem bfs_shortest_path_witness :
    chainStore.connected_breadth "Q1" "Q3" = some (true, ["Q1", "Q2", "Q3"]) ∧
      WalkU chainStore "Q1" "Q3" ["Q1", "Q2", "Q1", "Q2", "Q3"] ∧
      (["Q1", "Q2", "Q3"] : List String).length
        ≤ (["Q1", "Q2", "Q1", "Q2", "Q3"] : List String).length :=
  ⟨by decide, ⟨by decide, by decide, by decide⟩,
    (bfs_shortest_path chainStore "Q1" "Q3" (by decide) (by decide) (by decide)
        ["Q1", "Q2", "Q3"] (by decide)).1
      ["Q1", "Q2", "Q1", "Q2", "Q3"] ⟨by decide, by decide, by decide⟩⟩

end WikiDeep
